import Mathlib

/-!
# Salsa20 stream cipher (`salsa.c`): a shallow embedding

The C program is embedded as pure functions on explicit state.

* `uint8_t` and `uint32_t` values are natural numbers; every C operation that
  can leave the range is followed by an explicit `% 2 ^ 8` or `% 2 ^ 32`.
* C arrays are lists; `a[i]` is `a.getD i 0` and `a[i] = v` is `a.set i v`.
* A pointer is a list together with an offset into it.
* `struct salsa_context` is a structure with the four fields of the C struct.
* The host is little-endian (`U32TO32(x)` is `x`), so a `uint32_t` access
  through a byte pointer reads and writes the four bytes least significant
  byte first.
* `salsa_context_new` is the successful allocation; the `NULL` result of a
  failed `malloc` is not modelled.
* The `for` loop of `salsa_encrypt` is a recursion on a bound for the number of
  iterations; `full_block_loop_spec` shows that the loop always leaves through
  its own test `buflen >= 64`, with `buflen % 64` bytes remaining.
-/

namespace Salsa

/-! ## Machine words and memory -/

/-- Reading `a[i]` from a C array. -/
def rd (a : List Nat) (i : Nat) : Nat := a.getD i 0

/-- The macro `ROTL32(v, n)`, `((v << n) | (v >> (32 - n)))`, on `uint32_t`. -/
def ROTL32 (v n : Nat) : Nat := ((v <<< n) % 2 ^ 32) ||| (v >>> (32 - n))

/-- The macro `U32TO32(x)` on a little-endian host. -/
def U32TO32 (x : Nat) : Nat := x

/-- The macro `U8TO32_LITTLE(p)`, where the pointer `p` is `a + off`. -/
def U8TO32_LITTLE (a : List Nat) (off : Nat) : Nat :=
  ((rd a off) ||| ((rd a (off + 1)) <<< 8) |||
    ((rd a (off + 2)) <<< 16) ||| ((rd a (off + 3)) <<< 24)) % 2 ^ 32

/-- The call `memcpy(dst, src, n)`: the first `n` bytes of `dst` are replaced by
those of `src`, the rest of `dst` is kept. -/
def memcpy (dst src : List Nat) (n : Nat) : List Nat :=
  (List.range dst.length).map (fun i => if i < n then rd src i else rd dst i)

/-- The load `*(uint32_t *)(a + off)` on a little-endian host. -/
def load32 (a : List Nat) (off : Nat) : Nat :=
  rd a off + 2 ^ 8 * rd a (off + 1) + 2 ^ 16 * rd a (off + 2) + 2 ^ 24 * rd a (off + 3)

/-- The store `*(uint32_t *)(a + off) = w` on a little-endian host. -/
def store32 (a : List Nat) (off w : Nat) : List Nat :=
  (((a.set off (w % 2 ^ 8)).set (off + 1) ((w >>> 8) % 2 ^ 8)).set (off + 2)
    ((w >>> 16) % 2 ^ 8)).set (off + 3) ((w >>> 24) % 2 ^ 8)

/-- The read `((uint8_t *)keystream)[i]` of one byte of a `uint32_t` array on a
little-endian host. -/
def byte_of_words (ks : List Nat) (i : Nat) : Nat :=
  (rd ks (i / 4) >>> (8 * (i % 4))) % 2 ^ 8

/-! ## The context -/

/-- The C `struct salsa_context`. -/
structure salsa_context where
  keylen : Int
  key : List Nat
  iv : List Nat
  x : List Nat
  deriving DecidableEq

/-- The function `salsa_context_new`: a context with every byte zero. -/
def salsa_context_new : salsa_context :=
  { keylen := 0, key := List.replicate 32 0, iv := List.replicate 16 0,
    x := List.replicate 16 0 }

/-- The values a `struct salsa_context` can hold: `key` has 32 bytes, `iv` has
16 bytes and `x` has 16 words of 32 bits. -/
def salsa_context.wf (c : salsa_context) : Prop :=
  c.key.length = 32 ∧ c.iv.length = 16 ∧ c.x.length = 16 ∧
  (∀ b ∈ c.key, b < 2 ^ 8) ∧ (∀ b ∈ c.iv, b < 2 ^ 8) ∧ (∀ w ∈ c.x, w < 2 ^ 32)

instance (c : salsa_context) : Decidable c.wf := by
  unfold salsa_context.wf; infer_instance

/-- The array `key_expand_16` of `salsa_set_key_and_iv`. -/
def key_expand_16 : List Nat :=
  ['e', 'x', 'p', 'a', 'n', 'd', ' ', '1', '6', '-', 'b', 'y', 't', 'e', ' ', 'k'].map Char.toNat

/-- The array `key_expand_32` of `salsa_set_key_and_iv`. -/
def key_expand_32 : List Nat :=
  ['e', 'x', 'p', 'a', 'n', 'd', ' ', '3', '2', '-', 'b', 'y', 't', 'e', ' ', 'k'].map Char.toNat

/-- The body of the loop `for(i = 0; i < 4; i++)` of `salsa_set_key_and_iv`. -/
def set_key_step (expand key iv : List Nat) (j : Nat) (x : List Nat) (i : Nat) : List Nat :=
  let x := x.set (i * 5) (U8TO32_LITTLE expand (i * 4))
  let x := x.set (i + 1) (U8TO32_LITTLE key (i * 4))
  let x := x.set (i + 6) (U8TO32_LITTLE iv (i * 4))
  let x := x.set (i + 11) (U8TO32_LITTLE key ((j + i) * 4))
  x

/-- The part of `salsa_set_key_and_iv` after the key length test: both
`memcpy`s, the loop zeroing `iv[8..15]` and the loop filling `x`. -/
def set_key_fill (ctx : salsa_context) (key : List Nat) (keylen : Int) (iv : List Nat)
    (expand : List Nat) (j : Nat) : salsa_context :=
  let k := memcpy ctx.key key keylen.toNat
  let v := memcpy ctx.iv iv 8
  let v := [8, 9, 10, 11, 12, 13, 14, 15].foldl (fun v i => v.set i 0) v
  let x := [0, 1, 2, 3].foldl (set_key_step expand k v j) ctx.x
  { ctx with key := k, iv := v, x := x }

/-- The function `salsa_set_key_and_iv`: the return value and the context after
the call. -/
def salsa_set_key_and_iv (ctx : salsa_context) (key : List Nat) (keylen : Int)
    (iv : List Nat) : Int × salsa_context :=
  if keylen = 32 then
    (0, set_key_fill { ctx with keylen := 32 } key keylen iv key_expand_32 4)
  else if keylen < 32 ∧ keylen > 0 then
    (0, set_key_fill { ctx with keylen := 16 } key keylen iv key_expand_16 0)
  else
    (-1, ctx)

/-! ## The hash function -/

/-- One statement `z[b] ^= ROTL32((z[a] + z[c]), n)` of the round loop. -/
def upd (z : List Nat) (b a c n : Nat) : List Nat :=
  z.set b (rd z b ^^^ ROTL32 ((rd z a + rd z c) % 2 ^ 32) n)

/-- The body of the loop `for(i = 0; i < 10; i++)` of `salsa20`. -/
def salsa20_round (z : List Nat) : List Nat :=
  let z := upd z 4 0 12 7
  let z := upd z 8 4 0 9
  let z := upd z 12 8 4 13
  let z := upd z 0 12 8 18
  let z := upd z 9 5 1 7
  let z := upd z 13 9 5 9
  let z := upd z 1 13 9 13
  let z := upd z 5 1 13 18
  let z := upd z 14 10 6 7
  let z := upd z 2 14 10 9
  let z := upd z 6 2 14 13
  let z := upd z 10 6 2 18
  let z := upd z 3 15 11 7
  let z := upd z 7 3 15 9
  let z := upd z 11 7 3 13
  let z := upd z 15 11 7 18
  let z := upd z 1 0 3 7
  let z := upd z 2 1 0 9
  let z := upd z 3 2 1 13
  let z := upd z 0 3 2 18
  let z := upd z 6 5 4 7
  let z := upd z 7 6 5 9
  let z := upd z 4 7 6 13
  let z := upd z 5 4 7 18
  let z := upd z 11 10 9 7
  let z := upd z 8 11 10 9
  let z := upd z 9 8 11 13
  let z := upd z 10 9 8 18
  let z := upd z 12 15 14 7
  let z := upd z 13 12 15 9
  let z := upd z 14 13 12 13
  let z := upd z 15 14 13 18
  z

/-- The sixteen indices of the loops `for(i = 0; i < 16; i++)`. -/
def idx16 : List Nat := [0, 1, 2, 3, 4, 5, 6, 7, 8, 9, 10, 11, 12, 13, 14, 15]

/-- The working array `z` of `salsa20` after the copy loop and the ten
iterations of the round loop. -/
def salsa20_mix (x : List Nat) : List Nat :=
  let z := idx16.map (fun i => rd x i)
  Nat.iterate salsa20_round 10 z

/-- The function `salsa20`: the array `keystream` after the call. The context is
only read. -/
def salsa20 (ctx : salsa_context) : List Nat :=
  let z := salsa20_mix ctx.x
  idx16.map (fun i => U32TO32 ((rd z i + rd ctx.x i) % 2 ^ 32))

/-! ## The stream processor -/

/-- The statements `ctx->x[8] += 1; if(!ctx->x[8]) ctx->x[9] += 1;` that follow
each call of `salsa20` in `salsa_encrypt`. -/
def counter_incr (ctx : salsa_context) : salsa_context :=
  let x := ctx.x.set 8 ((rd ctx.x 8 + 1) % 2 ^ 32)
  let x := if rd x 8 = 0 then x.set 9 ((rd x 9 + 1) % 2 ^ 32) else x
  { ctx with x := x }

/-- The sixteen word assignments
`*(uint32_t *)(out + 4 * k) = *(uint32_t *)(buf + 4 * k) ^ keystream[k]` of the
full-block loop, where the pointers are `buf + bufp` and `out + outp`. -/
def xor_block (ks buf : List Nat) (bufp : Nat) (out : List Nat) (outp : Nat) : List Nat :=
  let out := store32 out (outp + 0) (load32 buf (bufp + 0) ^^^ rd ks 0)
  let out := store32 out (outp + 4) (load32 buf (bufp + 4) ^^^ rd ks 1)
  let out := store32 out (outp + 8) (load32 buf (bufp + 8) ^^^ rd ks 2)
  let out := store32 out (outp + 12) (load32 buf (bufp + 12) ^^^ rd ks 3)
  let out := store32 out (outp + 16) (load32 buf (bufp + 16) ^^^ rd ks 4)
  let out := store32 out (outp + 20) (load32 buf (bufp + 20) ^^^ rd ks 5)
  let out := store32 out (outp + 24) (load32 buf (bufp + 24) ^^^ rd ks 6)
  let out := store32 out (outp + 28) (load32 buf (bufp + 28) ^^^ rd ks 7)
  let out := store32 out (outp + 32) (load32 buf (bufp + 32) ^^^ rd ks 8)
  let out := store32 out (outp + 36) (load32 buf (bufp + 36) ^^^ rd ks 9)
  let out := store32 out (outp + 40) (load32 buf (bufp + 40) ^^^ rd ks 10)
  let out := store32 out (outp + 44) (load32 buf (bufp + 44) ^^^ rd ks 11)
  let out := store32 out (outp + 48) (load32 buf (bufp + 48) ^^^ rd ks 12)
  let out := store32 out (outp + 52) (load32 buf (bufp + 52) ^^^ rd ks 13)
  let out := store32 out (outp + 56) (load32 buf (bufp + 56) ^^^ rd ks 14)
  let out := store32 out (outp + 60) (load32 buf (bufp + 60) ^^^ rd ks 15)
  out

/-- The loop `for(i = 0; i < buflen; i++) out[i] = buf[i] ^ ((uint8_t *)keystream)[i];`
of the trailing partial block; the assignment to a `uint8_t` keeps the low
eight bits. -/
def xor_bytes (ks buf : List Nat) (bufp : Nat) (out : List Nat) (outp buflen : Nat) : List Nat :=
  (List.range buflen).foldl
    (fun o i => o.set (outp + i) ((rd buf (bufp + i) ^^^ byte_of_words ks i) % 2 ^ 8)) out

/-- The variables of `salsa_encrypt` that change while it runs: the context, the
remaining length `buflen`, the offsets of the two moving pointers `buf` and
`out`, and the contents of the output buffer. -/
structure enc_state where
  ctx : salsa_context
  buflen : Nat
  bufp : Nat
  outp : Nat
  out : List Nat
  deriving DecidableEq

/-- One iteration of the loop `for(; buflen >= 64; buflen -= 64, buf += 64, out += 64)`. -/
def full_block_step (buf : List Nat) (s : enc_state) : enc_state :=
  let keystream := salsa20 s.ctx
  let ctx := counter_incr s.ctx
  let out := xor_block keystream buf s.bufp s.out s.outp
  { ctx := ctx, buflen := s.buflen - 64, bufp := s.bufp + 64, outp := s.outp + 64, out := out }

/-- The loop `for(; buflen >= 64; ...)`, with a bound `fuel` on the number of
iterations. -/
def full_block_loop (buf : List Nat) : Nat → enc_state → enc_state
  | 0, s => s
  | fuel + 1, s =>
    if s.buflen ≥ 64 then full_block_loop buf fuel (full_block_step buf s) else s

/-- The statement `if(buflen > 0) { ... }` for the trailing partial block. -/
def trailing_block (buf : List Nat) (s : enc_state) : enc_state :=
  if s.buflen > 0 then
    let keystream := salsa20 s.ctx
    let ctx := counter_incr s.ctx
    let out := xor_bytes keystream buf s.bufp s.out s.outp s.buflen
    { s with ctx := ctx, out := out }
  else s

/-- The function `salsa_encrypt`: the context and the output buffer after the
call. The loop runs at most `buflen / 64` times, so `buflen` iterations are
always enough. -/
def salsa_encrypt (ctx : salsa_context) (buf : List Nat) (buflen : Nat) (out : List Nat) :
    salsa_context × List Nat :=
  let s := full_block_loop buf buflen
    { ctx := ctx, buflen := buflen, bufp := 0, outp := 0, out := out }
  let s := trailing_block buf s
  (s.ctx, s.out)

/-- The function `salsa_decrypt`, which calls `salsa_encrypt`. -/
def salsa_decrypt (ctx : salsa_context) (buf : List Nat) (buflen : Nat) (out : List Nat) :
    salsa_context × List Nat :=
  salsa_encrypt ctx buf buflen out

/-! ## Specification vocabulary -/

/-- The `k`-th word assignment of the full-block loop. -/
def xor_word_at (ks buf : List Nat) (bufp outp : Nat) (out : List Nat) (k : Nat) : List Nat :=
  store32 out (outp + 4 * k) (load32 buf (bufp + 4 * k) ^^^ rd ks k)

/-- The 64-bit block counter held in slots 8 (low word) and 9 (high word). -/
def counter (ctx : salsa_context) : Nat := rd ctx.x 9 * 2 ^ 32 + rd ctx.x 8

/-- The context with slots 8 and 9 set to the low and high 32-bit words of `c`. -/
def with_counter (ctx : salsa_context) (c : Nat) : salsa_context :=
  { ctx with x := (ctx.x.set 8 (c % 2 ^ 32)).set 9 (c / 2 ^ 32 % 2 ^ 32) }

/-- The 64-byte keystream block `KS(ctx, c)`: the bytes, in memory order, of the
sixteen words `salsa20` produces from the state of `ctx` with the counter slots
set to `c`. -/
def KS (ctx : salsa_context) (c : Nat) : List Nat :=
  (List.range 64).map (byte_of_words (salsa20 (with_counter ctx c)))

/-- The ASCII bytes of the constant of the 32-byte-key layout. -/
def sigma : List Nat := "expand 32-byte k".toList.map Char.toNat

/-- The ASCII bytes of the constant of the short-key layout. -/
def tau : List Nat := "expand 16-byte k".toList.map Char.toNat

/-- The list `l` is a buffer of exactly `n` bytes. -/
def is_bytes (l : List Nat) (n : Nat) : Prop := l.length = n ∧ ∀ b ∈ l, b < 2 ^ 8

instance (l : List Nat) (n : Nat) : Decidable (is_bytes l n) := by
  unfold is_bytes; infer_instance

/-- The context `b` agrees with `a` on `keylen`, `key`, `iv` and on every state
slot other than 8 and 9. -/
def same_outside_counter (a b : salsa_context) : Prop :=
  b.keylen = a.keylen ∧ b.key = a.key ∧ b.iv = a.iv ∧ b.x.length = a.x.length ∧
  ∀ i, i ≠ 8 → i ≠ 9 → rd b.x i = rd a.x i

/-- The published Salsa20/20 keystream block for the all-zero 256-bit key and
the all-zero nonce, in output order. -/
def reference_keystream : List Nat :=
  [0x9a, 0x97, 0xf6, 0x5b, 0x9b, 0x4c, 0x72, 0x1b, 0x96, 0x0a, 0x67, 0x21, 0x45, 0xfc, 0xa8, 0xd4,
   0xe3, 0x2e, 0x67, 0xf9, 0x11, 0x1e, 0xa9, 0x79, 0xce, 0x9c, 0x48, 0x26, 0x80, 0x6a, 0xee, 0xe6,
   0x3d, 0xe9, 0xc0, 0xda, 0x2b, 0xd7, 0xf9, 0x1e, 0xbc, 0xb2, 0x63, 0x9b, 0xf9, 0x89, 0xc6, 0x25,
   0x1b, 0x29, 0xbf, 0x38, 0xd3, 0x9a, 0x9b, 0xdc, 0xe7, 0xc5, 0x5f, 0x4b, 0x2a, 0xc1, 0x2a, 0x39]

/-- The fresh context initialised with the all-zero 32-byte key and the all-zero
nonce. -/
def zero_key_context : salsa_context :=
  (salsa_set_key_and_iv salsa_context_new (List.replicate 32 0) 32 (List.replicate 8 0)).2

/-- A context that was initialised earlier with a 32-byte key of `0xff` bytes. -/
def used_context : salsa_context :=
  (salsa_set_key_and_iv salsa_context_new (List.replicate 32 255) 32 (List.replicate 8 0)).2

/-- A context whose low counter word is about to wrap. -/
def wrap_context : salsa_context := with_counter zero_key_context (2 ^ 32 - 1)

/-- The contexts on which the loop `for(; buflen >= 64; ...)` calls `salsa20`, in
call order: one call at the start of each iteration. -/
def full_block_loop_calls (buf : List Nat) : Nat → enc_state → List salsa_context
  | 0, _ => []
  | fuel + 1, s =>
    if s.buflen ≥ 64 then s.ctx :: full_block_loop_calls buf fuel (full_block_step buf s)
    else []

/-- The contexts on which `salsa_encrypt` calls `salsa20`, in call order: the
calls of the full-block loop, then the call of the trailing block when
`buflen > 0` after the loop. -/
def salsa_encrypt_calls (ctx : salsa_context) (buf : List Nat) (buflen : Nat) (out : List Nat) :
    List salsa_context :=
  let s0 : enc_state := { ctx := ctx, buflen := buflen, bufp := 0, outp := 0, out := out }
  let s := full_block_loop buf buflen s0
  full_block_loop_calls buf buflen s0 ++ (if s.buflen > 0 then [s.ctx] else [])

/-- The 32-bit circular left rotation of the claim: the low `32 - n` bits of `v`
move up by `n` places and the high `n` bits move to the bottom. -/
def rotl32 (v n : Nat) : Nat := (v % 2 ^ (32 - n)) * 2 ^ n + v / 2 ^ (32 - n)

/-- The quarter-round of the claim on the indices `(a, b, c, d)` of a 16-word
array. -/
def quarterround (z : List Nat) (a b c d : Nat) : List Nat :=
  let z := z.set b (rd z b ^^^ rotl32 ((rd z a + rd z d) % 2 ^ 32) 7)
  let z := z.set c (rd z c ^^^ rotl32 ((rd z b + rd z a) % 2 ^ 32) 9)
  let z := z.set d (rd z d ^^^ rotl32 ((rd z c + rd z b) % 2 ^ 32) 13)
  let z := z.set a (rd z a ^^^ rotl32 ((rd z d + rd z c) % 2 ^ 32) 18)
  z

/-- The column round of the claim. -/
def columnround (z : List Nat) : List Nat :=
  quarterround (quarterround (quarterround (quarterround z 0 4 8 12) 5 9 13 1) 10 14 2 6) 15 3 7 11

/-- The row round of the claim. -/
def rowround (z : List Nat) : List Nat :=
  quarterround (quarterround (quarterround (quarterround z 0 1 2 3) 5 6 7 4) 10 11 8 9) 15 12 13 14

/-- One iteration of the reference construction: a column round, then a row
round. -/
def doubleround (z : List Nat) : List Nat := rowround (columnround z)

/-- The 32 statements of one iteration of the round loop of `salsa20`, undone in
reverse order: each `z[b] ^= ROTL32((z[a] + z[c]), n)` is its own inverse. -/
def salsa20_round_inv (z : List Nat) : List Nat :=
  let z := upd z 15 14 13 18
  let z := upd z 14 13 12 13
  let z := upd z 13 12 15 9
  let z := upd z 12 15 14 7
  let z := upd z 10 9 8 18
  let z := upd z 9 8 11 13
  let z := upd z 8 11 10 9
  let z := upd z 11 10 9 7
  let z := upd z 5 4 7 18
  let z := upd z 4 7 6 13
  let z := upd z 7 6 5 9
  let z := upd z 6 5 4 7
  let z := upd z 0 3 2 18
  let z := upd z 3 2 1 13
  let z := upd z 2 1 0 9
  let z := upd z 1 0 3 7
  let z := upd z 15 11 7 18
  let z := upd z 11 7 3 13
  let z := upd z 7 3 15 9
  let z := upd z 3 15 11 7
  let z := upd z 10 6 2 18
  let z := upd z 6 2 14 13
  let z := upd z 2 14 10 9
  let z := upd z 14 10 6 7
  let z := upd z 5 1 13 18
  let z := upd z 1 13 9 13
  let z := upd z 13 9 5 9
  let z := upd z 9 5 1 7
  let z := upd z 0 12 8 18
  let z := upd z 12 8 4 13
  let z := upd z 8 4 0 9
  let z := upd z 4 0 12 7
  z

/-- The 16-tuples of 32-bit words. -/
def is_state (z : List Nat) : Prop := z.length = 16 ∧ ∀ w ∈ z, w < 2 ^ 32

instance (z : List Nat) : Decidable (is_state z) := by
  unfold is_state; infer_instance

/-- The little-endian encoding of a 32-bit word as four bytes. -/
def le_bytes (w : Nat) : List Nat := [w % 2 ^ 8, w / 2 ^ 8 % 2 ^ 8, w / 2 ^ 16 % 2 ^ 8, w / 2 ^ 24 % 2 ^ 8]

/-- The variables of `salsa_encrypt` at the start of a call on 64 bytes with the
zero-key context. -/
def one_block_state : enc_state :=
  { ctx := zero_key_context, buflen := 64, bufp := 0, outp := 0, out := List.replicate 64 0 }

/-- The byte-wise XOR of two buffers. -/
def xor_buffers (a d : List Nat) : List Nat := List.zipWith (fun x y => x ^^^ y) a d

/-! ## Memory lemmas -/

theorem rd_set (l : List Nat) (i j v : Nat) :
    rd (l.set i v) j = if i = j ∧ i < l.length then v else rd l j := by
  unfold rd
  rw [List.getD_eq_getElem?_getD, List.getD_eq_getElem?_getD, List.getElem?_set]
  by_cases h : i = j
  · subst h
    by_cases h2 : i < l.length
    · simp [h2]
    · simp only [h2, if_false, and_false]
      rw [List.getElem?_eq_none (by omega)]
      simp
  · simp [h]

theorem rd_lt_of_forall {l : List Nat} {B : Nat} (hB : 0 < B) (h : ∀ b ∈ l, b < B) (i : Nat) :
    rd l i < B := by
  unfold rd
  by_cases hi : i < l.length
  · rw [List.getD_eq_getElem _ _ hi]; exact h _ (List.getElem_mem hi)
  · rw [List.getD_eq_default _ _ (by omega)]; exact hB

theorem ext_rd {l1 l2 : List Nat} (hl : l1.length = l2.length) (h : ∀ j, rd l1 j = rd l2 j) :
    l1 = l2 := by
  apply List.ext_getElem hl
  intro n h1 h2
  have := h n
  unfold rd at this
  rwa [List.getD_eq_getElem _ _ h1, List.getD_eq_getElem _ _ h2] at this

theorem xor_byte (a w s : Nat) :
    ((a ^^^ w) >>> s) % 2 ^ 8 = ((a >>> s) % 2 ^ 8) ^^^ ((w >>> s) % 2 ^ 8) := by
  apply Nat.eq_of_testBit_eq
  intro i
  simp only [Nat.testBit_mod_two_pow, Nat.testBit_shiftRight, Nat.testBit_xor]
  by_cases h : i < 8 <;> simp [h]

theorem store32_length (a : List Nat) (off w : Nat) : (store32 a off w).length = a.length := by
  simp [store32]

theorem rd_store32 (a : List Nat) (off w j : Nat) (h : off + 4 ≤ a.length) :
    rd (store32 a off w) j =
      if off ≤ j ∧ j < off + 4 then (w >>> (8 * (j - off))) % 2 ^ 8 else rd a j := by
  unfold store32
  simp only [rd_set, List.length_set]
  have hc : j < off ∨ j = off ∨ j = off + 1 ∨ j = off + 2 ∨ j = off + 3 ∨ off + 4 ≤ j := by omega
  rcases hc with hc | hc | hc | hc | hc | hc
  · have e1 : ¬ off + 3 = j := by omega
    have e2 : ¬ off + 2 = j := by omega
    have e3 : ¬ off + 1 = j := by omega
    have e4 : ¬ off = j := by omega
    have e5 : ¬ off ≤ j := by omega
    simp [e1, e2, e3, e4, e5]
  · subst hc
    have h1 : j < a.length := by omega
    simp [h1]
  · subst hc
    have h1 : off + 1 < a.length := by omega
    simp [h1]
  · subst hc
    have h1 : off + 2 < a.length := by omega
    simp [h1]
  · subst hc
    have h1 : off + 3 < a.length := by omega
    simp [h1]
  · have e1 : ¬ off + 3 = j := by omega
    have e2 : ¬ off + 2 = j := by omega
    have e3 : ¬ off + 1 = j := by omega
    have e4 : ¬ off = j := by omega
    have e5 : ¬ j < off + 4 := by omega
    simp [e1, e2, e3, e4, e5]

theorem load32_byte (a : List Nat) (off i : Nat) (hi : i < 4)
    (hb : ∀ k, rd a k < 2 ^ 8) :
    (load32 a off >>> (8 * i)) % 2 ^ 8 = rd a (off + i) := by
  unfold load32
  rw [Nat.shiftRight_eq_div_pow]
  have h0 := hb off
  have h1 := hb (off + 1)
  have h2 := hb (off + 2)
  have h3 := hb (off + 3)
  have : i = 0 ∨ i = 1 ∨ i = 2 ∨ i = 3 := by omega
  rcases this with rfl | rfl | rfl | rfl <;> norm_num at * <;> omega


theorem xor_block_eq_foldl (ks buf : List Nat) (bufp : Nat) (out : List Nat) (outp : Nat) :
    xor_block ks buf bufp out outp
      = (List.range 16).foldl (xor_word_at ks buf bufp outp) out := by
  have e : List.range 16 = idx16 := by decide
  rw [e]
  simp only [idx16, List.foldl_cons, List.foldl_nil, xor_word_at, xor_block]

theorem byte_of_words_lt (ks : List Nat) (i : Nat) : byte_of_words ks i < 2 ^ 8 :=
  Nat.mod_lt _ (by norm_num)

theorem xor_words_spec (ks buf : List Nat) (bufp outp : Nat) (hb : ∀ k, rd buf k < 2 ^ 8)
    (out : List Nat) (m : Nat) (hm : outp + 4 * m ≤ out.length) :
    ((List.range m).foldl (xor_word_at ks buf bufp outp) out).length = out.length ∧
    ∀ j, rd ((List.range m).foldl (xor_word_at ks buf bufp outp) out) j =
      if outp ≤ j ∧ j < outp + 4 * m then
        rd buf (bufp + (j - outp)) ^^^ byte_of_words ks (j - outp)
      else rd out j := by
  induction m with
  | zero =>
    refine ⟨rfl, fun j => ?_⟩
    have : ¬ (outp ≤ j ∧ j < outp + 4 * 0) := by omega
    rw [if_neg this]; rfl
  | succ m ih =>
    obtain ⟨ihl, ihr⟩ := ih (by omega)
    rw [List.range_succ, List.foldl_append]
    simp only [List.foldl_cons, List.foldl_nil]
    refine ⟨?_, fun j => ?_⟩
    · rw [xor_word_at, store32_length, ihl]
    · rw [xor_word_at, rd_store32 _ _ _ _ (by rw [ihl]; omega), ihr j]
      by_cases h1 : outp + 4 * m ≤ j ∧ j < outp + 4 * m + 4
      · have h2 : outp ≤ j ∧ j < outp + 4 * (m + 1) := by omega
        rw [if_pos h1, if_pos h2, xor_byte, load32_byte _ _ _ (by omega) hb]
        have e1 : bufp + 4 * m + (j - (outp + 4 * m)) = bufp + (j - outp) := by omega
        have e2 : (j - outp) / 4 = m := by omega
        have e3 : (j - outp) % 4 = j - (outp + 4 * m) := by omega
        rw [e1]
        unfold byte_of_words
        rw [e2, e3]
      · rw [if_neg h1]
        by_cases h3 : outp ≤ j ∧ j < outp + 4 * m
        · have h2 : outp ≤ j ∧ j < outp + 4 * (m + 1) := by omega
          rw [if_pos h3, if_pos h2]
        · have h2 : ¬ (outp ≤ j ∧ j < outp + 4 * (m + 1)) := by omega
          rw [if_neg h3, if_neg h2]

theorem xor_block_spec (ks buf : List Nat) (bufp outp : Nat) (hb : ∀ k, rd buf k < 2 ^ 8)
    (out : List Nat) (hm : outp + 64 ≤ out.length) :
    (xor_block ks buf bufp out outp).length = out.length ∧
    ∀ j, rd (xor_block ks buf bufp out outp) j =
      if outp ≤ j ∧ j < outp + 64 then
        rd buf (bufp + (j - outp)) ^^^ byte_of_words ks (j - outp)
      else rd out j := by
  rw [xor_block_eq_foldl]
  exact xor_words_spec ks buf bufp outp hb out 16 (by omega)

theorem xor_bytes_spec (ks buf : List Nat) (bufp outp : Nat) (hb : ∀ k, rd buf k < 2 ^ 8)
    (out : List Nat) (n : Nat) (hn : outp + n ≤ out.length) :
    (xor_bytes ks buf bufp out outp n).length = out.length ∧
    ∀ j, rd (xor_bytes ks buf bufp out outp n) j =
      if outp ≤ j ∧ j < outp + n then
        rd buf (bufp + (j - outp)) ^^^ byte_of_words ks (j - outp)
      else rd out j := by
  unfold xor_bytes
  induction n with
  | zero =>
    refine ⟨rfl, fun j => ?_⟩
    have : ¬ (outp ≤ j ∧ j < outp + 0) := by omega
    rw [if_neg this]; rfl
  | succ n ih =>
    obtain ⟨ihl, ihr⟩ := ih (by omega)
    rw [List.range_succ, List.foldl_append]
    simp only [List.foldl_cons, List.foldl_nil]
    refine ⟨?_, fun j => ?_⟩
    · rw [List.length_set, ihl]
    · rw [rd_set, ihr j, ihl,
        Nat.mod_eq_of_lt (Nat.xor_lt_two_pow (hb _) (byte_of_words_lt ks n))]
      by_cases h1 : outp + n = j
      · subst h1
        have h2 : outp + n < out.length := by omega
        have h3 : outp ≤ outp + n ∧ outp + n < outp + (n + 1) := by omega
        have e : outp + n - outp = n := by omega
        rw [if_pos ⟨rfl, h2⟩, if_pos h3, e]
      · have h2 : ¬ (outp + n = j ∧ outp + n < out.length) := fun h => h1 h.1
        rw [if_neg h2]
        by_cases h3 : outp ≤ j ∧ j < outp + n
        · have h4 : outp ≤ j ∧ j < outp + (n + 1) := by omega
          rw [if_pos h3, if_pos h4]
        · have h4 : ¬ (outp ≤ j ∧ j < outp + (n + 1)) := by omega
          rw [if_neg h3, if_neg h4]


theorem rd_KS (ctx : salsa_context) (c i : Nat) (hi : i < 64) :
    rd (KS ctx c) i = byte_of_words (salsa20 (with_counter ctx c)) i := by
  unfold KS rd
  rw [List.getD_eq_getElem _ _ (by simpa using hi)]
  simp

theorem with_counter_mod (ctx : salsa_context) (c : Nat) :
    with_counter ctx (c % 2 ^ 64) = with_counter ctx c := by
  unfold with_counter
  have e1 : c % 2 ^ 64 % 2 ^ 32 = c % 2 ^ 32 := by omega
  have e2 : c % 2 ^ 64 / 2 ^ 32 % 2 ^ 32 = c / 2 ^ 32 % 2 ^ 32 := by omega
  rw [e1, e2]

theorem with_counter_self (ctx : salsa_context) (h8 : rd ctx.x 8 < 2 ^ 32)
    (h9 : rd ctx.x 9 < 2 ^ 32) : with_counter ctx (counter ctx) = ctx := by
  unfold with_counter counter
  have e1 : (rd ctx.x 9 * 2 ^ 32 + rd ctx.x 8) % 2 ^ 32 = rd ctx.x 8 := by omega
  have e2 : (rd ctx.x 9 * 2 ^ 32 + rd ctx.x 8) / 2 ^ 32 % 2 ^ 32 = rd ctx.x 9 := by omega
  rw [e1, e2]
  have : (ctx.x.set 8 (rd ctx.x 8)).set 9 (rd ctx.x 9) = ctx.x := by
    apply ext_rd (by simp)
    intro j
    simp only [rd_set, List.length_set]
    by_cases h : 9 = j
    · subst h; simp
    · by_cases h' : 8 = j
      · subst h'; simp
      · simp [h, h']
  rw [this]

theorem set89_set89 (x : List Nat) (a b a' b' : Nat) :
    (((x.set 8 a).set 9 b).set 8 a').set 9 b' = (x.set 8 a').set 9 b' := by
  apply ext_rd (by simp)
  intro j
  simp only [rd_set, List.length_set]
  split_ifs <;> rfl

theorem set89_set8 (x : List Nat) (a b a' : Nat) :
    ((x.set 8 a).set 9 b).set 8 a' = (x.set 8 a').set 9 b := by
  apply ext_rd (by simp)
  intro j
  simp only [rd_set, List.length_set]
  split_ifs <;> first | rfl | (exfalso; omega)

theorem with_counter_with_counter (ctx : salsa_context) (c d : Nat) :
    with_counter (with_counter ctx c) d = with_counter ctx d := by
  unfold with_counter
  simp only
  rw [set89_set89]

theorem counter_incr_with_counter (ctx : salsa_context) (hx : 10 ≤ ctx.x.length) (c : Nat) :
    counter_incr (with_counter ctx c) = with_counter ctx (c + 1) := by
  unfold counter_incr with_counter
  simp only
  congr 1
  have h8 : rd ((ctx.x.set 8 (c % 2 ^ 32)).set 9 (c / 2 ^ 32 % 2 ^ 32)) 8 = c % 2 ^ 32 := by
    simp only [rd_set, List.length_set]
    have : 8 < ctx.x.length := by omega
    simp [this]
  have h9 : ∀ v, rd (((ctx.x.set 8 (c % 2 ^ 32)).set 9 (c / 2 ^ 32 % 2 ^ 32)).set 8 v) 9
      = c / 2 ^ 32 % 2 ^ 32 := by
    intro v
    simp only [rd_set, List.length_set]
    have : 9 < ctx.x.length := by omega
    simp [this]
  have h8' : ∀ v, rd (((ctx.x.set 8 (c % 2 ^ 32)).set 9 (c / 2 ^ 32 % 2 ^ 32)).set 8 v) 8
      = v := by
    intro v
    simp only [rd_set, List.length_set]
    have : 8 < ctx.x.length := by omega
    simp [this]
  rw [h8, h8', h9]
  by_cases hz : (c % 2 ^ 32 + 1) % 2 ^ 32 = 0
  · rw [if_pos hz]
    have e1 : (c + 1) % 2 ^ 32 = (c % 2 ^ 32 + 1) % 2 ^ 32 := by omega
    have e2 : (c + 1) / 2 ^ 32 % 2 ^ 32 = (c / 2 ^ 32 % 2 ^ 32 + 1) % 2 ^ 32 := by omega
    rw [e1, e2, set89_set89]
  · rw [if_neg hz]
    have e1 : (c + 1) % 2 ^ 32 = (c % 2 ^ 32 + 1) % 2 ^ 32 := by omega
    have e2 : (c + 1) / 2 ^ 32 % 2 ^ 32 = c / 2 ^ 32 % 2 ^ 32 := by omega
    rw [e1, e2, set89_set8]

/-! ## The stream processor: loop invariants -/

theorem full_block_loop_spec (ctx0 : salsa_context) (hx : 10 ≤ ctx0.x.length)
    (buf : List Nat) (hb : ∀ k, rd buf k < 2 ^ 8) :
    ∀ (fuel : Nat) (s : enc_state) (c : Nat), s.ctx = with_counter ctx0 c → s.bufp = s.outp →
      s.buflen / 64 ≤ fuel → s.outp + s.buflen ≤ s.out.length →
      (full_block_loop buf fuel s).ctx = with_counter ctx0 (c + s.buflen / 64) ∧
      (full_block_loop buf fuel s).buflen = s.buflen % 64 ∧
      (full_block_loop buf fuel s).bufp = s.bufp + 64 * (s.buflen / 64) ∧
      (full_block_loop buf fuel s).outp = s.outp + 64 * (s.buflen / 64) ∧
      (full_block_loop buf fuel s).out.length = s.out.length ∧
      ∀ j, rd (full_block_loop buf fuel s).out j =
        if s.outp ≤ j ∧ j < s.outp + 64 * (s.buflen / 64) then
          rd buf j ^^^ rd (KS ctx0 (c + (j - s.outp) / 64)) ((j - s.outp) % 64)
        else rd s.out j := by
  intro fuel
  induction fuel with
  | zero =>
    intro s c hc _ hf _
    have h0 : s.buflen / 64 = 0 := by omega
    have h1 : s.buflen % 64 = s.buflen := by omega
    have hstep : full_block_loop buf 0 s = s := by simp only [full_block_loop]
    rw [hstep, h0, h1]
    refine ⟨hc, rfl, rfl, rfl, rfl, fun j => ?_⟩
    rw [if_neg (by omega)]
  | succ fuel ih =>
    intro s c hc hp hf ho
    by_cases hge : s.buflen ≥ 64
    · have hstep : full_block_loop buf (fuel + 1) s
          = full_block_loop buf fuel (full_block_step buf s) := by
        simp only [full_block_loop, if_pos hge]
      rw [hstep]
      obtain ⟨bl, br⟩ := xor_block_spec (salsa20 s.ctx) buf s.bufp s.outp hb s.out (by omega)
      have hc' : (full_block_step buf s).ctx = with_counter ctx0 (c + 1) := by
        simp only [full_block_step, hc]
        exact counter_incr_with_counter ctx0 hx c
      have hlen : (full_block_step buf s).buflen = s.buflen - 64 := by
        simp only [full_block_step]
      have hbp : (full_block_step buf s).bufp = s.bufp + 64 := by
        simp only [full_block_step]
      have hop : (full_block_step buf s).outp = s.outp + 64 := by
        simp only [full_block_step]
      have hout : (full_block_step buf s).out
          = xor_block (salsa20 s.ctx) buf s.bufp s.out s.outp := by
        simp only [full_block_step]
      obtain ⟨i1, i2, i3, i4, i5, i6⟩ := ih (full_block_step buf s) (c + 1) hc'
        (by rw [hbp, hop, hp]) (by rw [hlen]; omega) (by rw [hlen, hop, hout, bl]; omega)
      rw [hlen, hop, hout] at i6
      rw [hlen] at i1 i2 i3 i4
      rw [hbp] at i3
      rw [hop] at i4
      rw [hout] at i5
      refine ⟨?_, ?_, ?_, ?_, ?_, fun j => ?_⟩
      · have e : c + 1 + (s.buflen - 64) / 64 = c + s.buflen / 64 := by omega
        rw [i1, e]
      · rw [i2]; omega
      · rw [i3]; omega
      · rw [i4]; omega
      · rw [i5, bl]
      · rw [i6 j, br j]
        by_cases h1 : s.outp + 64 ≤ j ∧ j < s.outp + 64 + 64 * ((s.buflen - 64) / 64)
        · have h2 : s.outp ≤ j ∧ j < s.outp + 64 * (s.buflen / 64) := by omega
          have e1 : c + 1 + (j - (s.outp + 64)) / 64 = c + (j - s.outp) / 64 := by omega
          have e2 : (j - (s.outp + 64)) % 64 = (j - s.outp) % 64 := by omega
          rw [if_pos h1, if_pos h2, e1, e2]
        · rw [if_neg h1]
          by_cases h3 : s.outp ≤ j ∧ j < s.outp + 64
          · have h2 : s.outp ≤ j ∧ j < s.outp + 64 * (s.buflen / 64) := by omega
            have e1 : (j - s.outp) / 64 = 0 := by omega
            have e2 : (j - s.outp) % 64 = j - s.outp := by omega
            have e3 : s.bufp + (j - s.outp) = j := by omega
            rw [if_pos h3, if_pos h2, e1, e2, e3, rd_KS _ _ _ (by omega), hc, Nat.add_zero]
          · have h2 : ¬ (s.outp ≤ j ∧ j < s.outp + 64 * (s.buflen / 64)) := by omega
            rw [if_neg h3, if_neg h2]
    · have hstep : full_block_loop buf (fuel + 1) s = s := by
        simp only [full_block_loop, if_neg hge]
      rw [hstep]
      have h0 : s.buflen / 64 = 0 := by omega
      have h1 : s.buflen % 64 = s.buflen := by omega
      rw [h0, h1]
      refine ⟨hc, rfl, rfl, rfl, rfl, fun j => ?_⟩
      rw [if_neg (by omega)]

theorem salsa_encrypt_spec (ctx0 : salsa_context) (hx : 10 ≤ ctx0.x.length) (c : Nat)
    (buf : List Nat) (hb : ∀ k, rd buf k < 2 ^ 8) (n : Nat) (out : List Nat)
    (hn : n ≤ out.length) :
    (salsa_encrypt (with_counter ctx0 c) buf n out).2.length = out.length ∧
    ∀ j, rd (salsa_encrypt (with_counter ctx0 c) buf n out).2 j =
      if j < n then rd buf j ^^^ rd (KS ctx0 (c + j / 64)) (j % 64) else rd out j := by
  have hs := full_block_loop_spec ctx0 hx buf hb n
    { ctx := with_counter ctx0 c, buflen := n, bufp := 0, outp := 0, out := out } c
  simp only at hs
  have hs := hs trivial trivial (Nat.div_le_self n 64) (by rw [Nat.zero_add]; exact hn)
  unfold salsa_encrypt
  simp only
  simp only at hs
  generalize full_block_loop buf n
    { ctx := with_counter ctx0 c, buflen := n, bufp := 0, outp := 0, out := out } = s at hs ⊢
  obtain ⟨l1, l2, l3, l4, l5, l6⟩ := hs
  unfold trailing_block
  by_cases hr : s.buflen > 0
  · rw [if_pos hr]
    simp only
    obtain ⟨bl, br⟩ := xor_bytes_spec (salsa20 s.ctx) buf s.bufp s.outp hb s.out s.buflen
      (by rw [l4, l2, l5]; omega)
    refine ⟨?_, fun j => ?_⟩
    · rw [bl, l5]
    · rw [br j, l6 j, l4, l3, l2]
      by_cases h1 : 0 + 64 * (n / 64) ≤ j ∧ j < 0 + 64 * (n / 64) + n % 64
      · have h2 : j < n := by omega
        have e1 : 0 + 64 * (n / 64) + (j - (0 + 64 * (n / 64))) = j := by omega
        have e2 : j - (0 + 64 * (n / 64)) = j % 64 := by omega
        have e3 : n / 64 = j / 64 := by omega
        rw [if_pos h1, if_pos h2, e1, e2, rd_KS _ _ _ (by omega), l1, e3]
      · rw [if_neg h1]
        by_cases h3 : 0 ≤ j ∧ j < 0 + 64 * (n / 64)
        · have h2 : j < n := by omega
          rw [if_pos h3, if_pos h2, Nat.sub_zero]
        · have h2 : ¬ j < n := by omega
          rw [if_neg h3, if_neg h2]
  · rw [if_neg hr]
    have hz : n % 64 = 0 := by omega
    refine ⟨l5, fun j => ?_⟩
    · rw [l6 j]
      by_cases h3 : 0 ≤ j ∧ j < 0 + 64 * (n / 64)
      · have h2 : j < n := by omega
        rw [if_pos h3, if_pos h2, Nat.sub_zero]
      · have h2 : ¬ j < n := by omega
        rw [if_neg h3, if_neg h2]


theorem full_block_loop_ctx (ctx0 : salsa_context) (hx : 10 ≤ ctx0.x.length) (buf : List Nat) :
    ∀ (fuel : Nat) (s : enc_state) (c : Nat), s.ctx = with_counter ctx0 c →
      s.buflen / 64 ≤ fuel →
      (full_block_loop buf fuel s).ctx = with_counter ctx0 (c + s.buflen / 64) ∧
      (full_block_loop buf fuel s).buflen = s.buflen % 64 := by
  intro fuel
  induction fuel with
  | zero =>
    intro s c hc hf
    have h0 : s.buflen / 64 = 0 := by omega
    have h1 : s.buflen % 64 = s.buflen := by omega
    have hstep : full_block_loop buf 0 s = s := by simp only [full_block_loop]
    rw [hstep, h0, h1]
    exact ⟨hc, rfl⟩
  | succ fuel ih =>
    intro s c hc hf
    by_cases hge : s.buflen ≥ 64
    · have hstep : full_block_loop buf (fuel + 1) s
          = full_block_loop buf fuel (full_block_step buf s) := by
        simp only [full_block_loop, if_pos hge]
      rw [hstep]
      have hc' : (full_block_step buf s).ctx = with_counter ctx0 (c + 1) := by
        simp only [full_block_step, hc]
        exact counter_incr_with_counter ctx0 hx c
      have hlen : (full_block_step buf s).buflen = s.buflen - 64 := by
        simp only [full_block_step]
      obtain ⟨i1, i2⟩ := ih (full_block_step buf s) (c + 1) hc' (by rw [hlen]; omega)
      rw [hlen] at i1 i2
      have e1 : c + 1 + (s.buflen - 64) / 64 = c + s.buflen / 64 := by omega
      have e2 : (s.buflen - 64) % 64 = s.buflen % 64 := by omega
      rw [i1, i2, e1, e2]
      exact ⟨rfl, rfl⟩
    · have hstep : full_block_loop buf (fuel + 1) s = s := by
        simp only [full_block_loop, if_neg hge]
      have h0 : s.buflen / 64 = 0 := by omega
      have h1 : s.buflen % 64 = s.buflen := by omega
      rw [hstep, h0, h1]
      exact ⟨hc, rfl⟩

theorem salsa_encrypt_ctx (ctx0 : salsa_context) (hx : 10 ≤ ctx0.x.length) (c : Nat)
    (buf : List Nat) (n : Nat) (out : List Nat) :
    (salsa_encrypt (with_counter ctx0 c) buf n out).1 = with_counter ctx0 (c + (n + 63) / 64) := by
  have hs := full_block_loop_ctx ctx0 hx buf n
    { ctx := with_counter ctx0 c, buflen := n, bufp := 0, outp := 0, out := out } c
  simp only at hs
  have hs := hs trivial (Nat.div_le_self n 64)
  unfold salsa_encrypt
  simp only
  generalize full_block_loop buf n
    { ctx := with_counter ctx0 c, buflen := n, bufp := 0, outp := 0, out := out } = s at hs ⊢
  obtain ⟨l1, l2⟩ := hs
  unfold trailing_block
  by_cases hr : s.buflen > 0
  · rw [if_pos hr]
    simp only
    have e : c + n / 64 + 1 = c + (n + 63) / 64 := by omega
    rw [l1, counter_incr_with_counter ctx0 hx, e]
  · rw [if_neg hr]
    have e : c + n / 64 = c + (n + 63) / 64 := by omega
    rw [l1, e]

theorem counter_with_counter (ctx : salsa_context) (hx : 10 ≤ ctx.x.length) (c : Nat) :
    counter (with_counter ctx c) = c % 2 ^ 64 := by
  unfold counter with_counter
  simp only [rd_set, List.length_set]
  have h8 : 8 < ctx.x.length := by omega
  have h9 : 9 < ctx.x.length := by omega
  simp only [h8, h9, and_true, if_true]
  rw [if_neg (by omega)]
  omega

theorem with_counter_congr (ctx : salsa_context) (c d : Nat) (h : c % 2 ^ 64 = d % 2 ^ 64) :
    with_counter ctx c = with_counter ctx d := by
  rw [← with_counter_mod ctx c, ← with_counter_mod ctx d, h]

/-! ## Key setup: the state layout -/

theorem length16 (l : List Nat) (h : l.length = 16) :
    l = [rd l 0, rd l 1, rd l 2, rd l 3, rd l 4, rd l 5, rd l 6, rd l 7, rd l 8, rd l 9,
      rd l 10, rd l 11, rd l 12, rd l 13, rd l 14, rd l 15] := by
  match l, h with
  | [_, _, _, _, _, _, _, _, _, _, _, _, _, _, _, _], _ => rfl

theorem memcpy_length (dst src : List Nat) (n : Nat) : (memcpy dst src n).length = dst.length := by
  simp [memcpy]

theorem rd_memcpy (dst src : List Nat) (n i : Nat) (hi : i < dst.length) :
    rd (memcpy dst src n) i = if i < n then rd src i else rd dst i := by
  unfold memcpy
  conv_lhs => unfold rd
  rw [List.getD_eq_getElem _ _ (by simpa using hi)]
  simp [rd, List.getD_eq_getElem?_getD]

/-- The array `x` after the filling loop, for an array of 16 words. -/
theorem set_key_fill_x (ctx : salsa_context) (key : List Nat) (keylen : Int) (iv expand : List Nat)
    (j : Nat) (hx : ctx.x.length = 16) :
    (set_key_fill ctx key keylen iv expand j).x =
      let k := memcpy ctx.key key keylen.toNat
      let v := [8, 9, 10, 11, 12, 13, 14, 15].foldl (fun v i => v.set i 0) (memcpy ctx.iv iv 8)
      [U8TO32_LITTLE expand 0, U8TO32_LITTLE k 0, U8TO32_LITTLE k 4, U8TO32_LITTLE k 8,
       U8TO32_LITTLE k 12, U8TO32_LITTLE expand 4, U8TO32_LITTLE v 0, U8TO32_LITTLE v 4,
       U8TO32_LITTLE v 8, U8TO32_LITTLE v 12, U8TO32_LITTLE expand 8,
       U8TO32_LITTLE k (j * 4), U8TO32_LITTLE k ((j + 1) * 4), U8TO32_LITTLE k ((j + 2) * 4),
       U8TO32_LITTLE k ((j + 3) * 4), U8TO32_LITTLE expand 12] := by
  unfold set_key_fill
  simp only
  rw [length16 ctx.x hx]
  simp only [List.foldl_cons, List.foldl_nil, set_key_step, List.set_cons_zero, List.set_cons_succ,
    Nat.zero_mul, Nat.zero_add, Nat.add_zero]


theorem or_shift_eq_add (a b i : Nat) (h : a < 2 ^ i) : a ||| (b <<< i) = a + 2 ^ i * b := by
  rw [Nat.lor_comm, Nat.shiftLeft_eq, Nat.mul_comm b, ← Nat.mul_add_lt_is_or h, Nat.add_comm]

/-- On bytes the macro `U8TO32_LITTLE` computes the little-endian word. -/
theorem U8TO32_LITTLE_eq_load32 (a : List Nat) (off : Nat)
    (h0 : rd a off < 2 ^ 8) (h1 : rd a (off + 1) < 2 ^ 8) (h2 : rd a (off + 2) < 2 ^ 8)
    (h3 : rd a (off + 3) < 2 ^ 8) : U8TO32_LITTLE a off = load32 a off := by
  unfold U8TO32_LITTLE load32
  rw [or_shift_eq_add _ _ 8 h0, or_shift_eq_add _ _ 16 (by omega),
    or_shift_eq_add _ _ 24 (by omega)]
  omega

theorem U8TO32_LITTLE_congr (a b : List Nat) (off off' : Nat)
    (h0 : rd a off = rd b off') (h1 : rd a (off + 1) = rd b (off' + 1))
    (h2 : rd a (off + 2) = rd b (off' + 2)) (h3 : rd a (off + 3) = rd b (off' + 3)) :
    U8TO32_LITTLE a off = U8TO32_LITTLE b off' := by
  unfold U8TO32_LITTLE
  rw [h0, h1, h2, h3]


theorem set_key_iv (civ iv : List Nat) (h : civ.length = 16) :
    [8, 9, 10, 11, 12, 13, 14, 15].foldl (fun v i => v.set i 0) (memcpy civ iv 8) =
      [rd iv 0, rd iv 1, rd iv 2, rd iv 3, rd iv 4, rd iv 5, rd iv 6, rd iv 7,
       0, 0, 0, 0, 0, 0, 0, 0] := by
  have hl : (memcpy civ iv 8).length = 16 := by rw [memcpy_length, h]
  rw [length16 _ hl]
  simp only [List.foldl_cons, List.foldl_nil, List.set_cons_zero, List.set_cons_succ]
  rw [rd_memcpy _ _ _ _ (by omega), rd_memcpy _ _ _ _ (by omega), rd_memcpy _ _ _ _ (by omega),
    rd_memcpy _ _ _ _ (by omega), rd_memcpy _ _ _ _ (by omega), rd_memcpy _ _ _ _ (by omega),
    rd_memcpy _ _ _ _ (by omega), rd_memcpy _ _ _ _ (by omega)]
  simp

/-- The sixteen state words after the filling code, for a context whose arrays
have the sizes of the C struct. -/
theorem set_key_fill_state (ctx : salsa_context) (key : List Nat) (keylen : Int)
    (iv expand : List Nat) (j : Nat) (hx : ctx.x.length = 16) (hv : ctx.iv.length = 16) :
    (set_key_fill ctx key keylen iv expand j).x =
      [U8TO32_LITTLE expand 0,
       U8TO32_LITTLE (memcpy ctx.key key keylen.toNat) 0,
       U8TO32_LITTLE (memcpy ctx.key key keylen.toNat) 4,
       U8TO32_LITTLE (memcpy ctx.key key keylen.toNat) 8,
       U8TO32_LITTLE (memcpy ctx.key key keylen.toNat) 12,
       U8TO32_LITTLE expand 4, U8TO32_LITTLE iv 0, U8TO32_LITTLE iv 4, 0, 0,
       U8TO32_LITTLE expand 8,
       U8TO32_LITTLE (memcpy ctx.key key keylen.toNat) (j * 4),
       U8TO32_LITTLE (memcpy ctx.key key keylen.toNat) ((j + 1) * 4),
       U8TO32_LITTLE (memcpy ctx.key key keylen.toNat) ((j + 2) * 4),
       U8TO32_LITTLE (memcpy ctx.key key keylen.toNat) ((j + 3) * 4),
       U8TO32_LITTLE expand 12] := by
  rw [set_key_fill_x ctx key keylen iv expand j hx]
  simp only
  rw [set_key_iv ctx.iv iv hv]
  have e0 : U8TO32_LITTLE [rd iv 0, rd iv 1, rd iv 2, rd iv 3, rd iv 4, rd iv 5, rd iv 6,
      rd iv 7, 0, 0, 0, 0, 0, 0, 0, 0] 0 = U8TO32_LITTLE iv 0 :=
    U8TO32_LITTLE_congr _ _ _ _ rfl rfl rfl rfl
  have e4 : U8TO32_LITTLE [rd iv 0, rd iv 1, rd iv 2, rd iv 3, rd iv 4, rd iv 5, rd iv 6,
      rd iv 7, 0, 0, 0, 0, 0, 0, 0, 0] 4 = U8TO32_LITTLE iv 4 :=
    U8TO32_LITTLE_congr _ _ _ _ rfl rfl rfl rfl
  have e8 : U8TO32_LITTLE [rd iv 0, rd iv 1, rd iv 2, rd iv 3, rd iv 4, rd iv 5, rd iv 6,
      rd iv 7, 0, 0, 0, 0, 0, 0, 0, 0] 8 = 0 := by
    simp [U8TO32_LITTLE, rd]
  have e12 : U8TO32_LITTLE [rd iv 0, rd iv 1, rd iv 2, rd iv 3, rd iv 4, rd iv 5, rd iv 6,
      rd iv 7, 0, 0, 0, 0, 0, 0, 0, 0] 12 = 0 := by
    simp [U8TO32_LITTLE, rd]
  rw [e0, e4, e8, e12]

theorem U8TO32_LITTLE_memcpy (dst src : List Nat) (n off : Nat) (h : off + 4 ≤ n)
    (hn : n ≤ dst.length) (hs : ∀ k, rd src k < 2 ^ 8) :
    U8TO32_LITTLE (memcpy dst src n) off = load32 src off := by
  rw [← U8TO32_LITTLE_eq_load32 src off (hs _) (hs _) (hs _) (hs _)]
  apply U8TO32_LITTLE_congr
  · rw [rd_memcpy _ _ _ _ (by omega), if_pos (by omega)]
  · rw [rd_memcpy _ _ _ _ (by omega), if_pos (by omega)]
  · rw [rd_memcpy _ _ _ _ (by omega), if_pos (by omega)]
  · rw [rd_memcpy _ _ _ _ (by omega), if_pos (by omega)]

theorem is_bytes.rd_lt {l : List Nat} {n : Nat} (h : is_bytes l n) (k : Nat) : rd l k < 2 ^ 8 :=
  rd_lt_of_forall (by norm_num) h.2 k

/-! ## The frame of the stream processor -/

theorem same_outside_counter_refl (a : salsa_context) : same_outside_counter a a :=
  ⟨rfl, rfl, rfl, rfl, fun _ _ _ => rfl⟩

theorem same_outside_counter_trans {a b c : salsa_context} (h1 : same_outside_counter a b)
    (h2 : same_outside_counter b c) : same_outside_counter a c :=
  ⟨h2.1.trans h1.1, h2.2.1.trans h1.2.1, h2.2.2.1.trans h1.2.2.1, h2.2.2.2.1.trans h1.2.2.2.1,
    fun i h8 h9 => (h2.2.2.2.2 i h8 h9).trans (h1.2.2.2.2 i h8 h9)⟩

theorem counter_incr_frame (ctx : salsa_context) : same_outside_counter ctx (counter_incr ctx) := by
  unfold counter_incr
  refine ⟨rfl, rfl, rfl, ?_, ?_⟩
  · simp only
    split <;> simp
  · intro i h8 h9
    have e8 : ∀ (l : List Nat) (v : Nat), rd (l.set 8 v) i = rd l i := fun l v => by
      rw [rd_set, if_neg (fun h => h8 h.1.symm)]
    have e9 : ∀ (l : List Nat) (v : Nat), rd (l.set 9 v) i = rd l i := fun l v => by
      rw [rd_set, if_neg (fun h => h9 h.1.symm)]
    simp only
    split
    · rw [e9, e8]
    · rw [e8]

theorem full_block_loop_frame (buf : List Nat) :
    ∀ (fuel : Nat) (s : enc_state), same_outside_counter s.ctx (full_block_loop buf fuel s).ctx := by
  intro fuel
  induction fuel with
  | zero => intro s; exact same_outside_counter_refl _
  | succ fuel ih =>
    intro s
    by_cases hge : s.buflen ≥ 64
    · have hstep : full_block_loop buf (fuel + 1) s
          = full_block_loop buf fuel (full_block_step buf s) := by
        simp only [full_block_loop, if_pos hge]
      rw [hstep]
      have h1 : same_outside_counter s.ctx (full_block_step buf s).ctx := by
        simp only [full_block_step]
        exact counter_incr_frame s.ctx
      exact same_outside_counter_trans h1 (ih _)
    · have hstep : full_block_loop buf (fuel + 1) s = s := by
        simp only [full_block_loop, if_neg hge]
      rw [hstep]
      exact same_outside_counter_refl _

theorem salsa_encrypt_frame (ctx : salsa_context) (buf : List Nat) (n : Nat) (out : List Nat) :
    same_outside_counter ctx (salsa_encrypt ctx buf n out).1 := by
  have h := full_block_loop_frame buf n
    { ctx := ctx, buflen := n, bufp := 0, outp := 0, out := out }
  simp only at h
  unfold salsa_encrypt
  simp only
  generalize full_block_loop buf n
    { ctx := ctx, buflen := n, bufp := 0, outp := 0, out := out } = s at h ⊢
  unfold trailing_block
  by_cases hr : s.buflen > 0
  · rw [if_pos hr]
    exact same_outside_counter_trans h (counter_incr_frame s.ctx)
  · rw [if_neg hr]
    exact h

/-! ## The stream processor on well-formed contexts -/

theorem KS_mod (ctx : salsa_context) (c : Nat) : KS ctx (c % 2 ^ 64) = KS ctx c := by
  unfold KS
  rw [with_counter_mod]

theorem KS_congr (ctx : salsa_context) (c d : Nat) (h : c % 2 ^ 64 = d % 2 ^ 64) :
    KS ctx c = KS ctx d := by
  unfold KS
  rw [with_counter_congr ctx c d h]

theorem KS_with_counter (ctx : salsa_context) (c d : Nat) :
    KS (with_counter ctx c) d = KS ctx d := by
  unfold KS
  rw [with_counter_with_counter]

theorem wf_counter (ctx : salsa_context) (hwf : ctx.wf) :
    10 ≤ ctx.x.length ∧ rd ctx.x 8 < 2 ^ 32 ∧ rd ctx.x 9 < 2 ^ 32 ∧
      with_counter ctx (counter ctx) = ctx := by
  obtain ⟨-, -, wx, -, -, wb⟩ := hwf
  have h8 : rd ctx.x 8 < 2 ^ 32 := rd_lt_of_forall (by norm_num) wb 8
  have h9 : rd ctx.x 9 < 2 ^ 32 := rd_lt_of_forall (by norm_num) wb 9
  exact ⟨by omega, h8, h9, with_counter_self ctx h8 h9⟩

theorem rd_with_counter (ctx : salsa_context) (hx : 10 ≤ ctx.x.length) (c : Nat) :
    rd (with_counter ctx c).x 8 = c % 2 ^ 32 ∧ rd (with_counter ctx c).x 9 = c / 2 ^ 32 % 2 ^ 32 := by
  unfold with_counter
  simp only [rd_set, List.length_set]
  have h8 : 8 < ctx.x.length := by omega
  have h9 : 9 < ctx.x.length := by omega
  simp only [h8, h9, and_true, if_true]
  rw [if_neg (by omega)]

/-- The output of `salsa_encrypt` on a well-formed context. -/
theorem salsa_encrypt_out (ctx : salsa_context) (hwf : ctx.wf) (buf : List Nat)
    (hb : ∀ k, rd buf k < 2 ^ 8) (n : Nat) (out : List Nat) (hn : n ≤ out.length) :
    (salsa_encrypt ctx buf n out).2.length = out.length ∧
    ∀ j, rd (salsa_encrypt ctx buf n out).2 j =
      if j < n then rd buf j ^^^ rd (KS ctx ((counter ctx + j / 64) % 2 ^ 64)) (j % 64)
      else rd out j := by
  obtain ⟨hx, -, -, hself⟩ := wf_counter ctx hwf
  have h := salsa_encrypt_spec ctx hx (counter ctx) buf hb n out hn
  rw [hself] at h
  refine ⟨h.1, fun j => ?_⟩
  rw [h.2 j, KS_mod]

/-- The context after `salsa_encrypt` on a well-formed context. -/
theorem salsa_encrypt_ctx_wf (ctx : salsa_context) (hwf : ctx.wf) (buf : List Nat) (n : Nat)
    (out : List Nat) :
    (salsa_encrypt ctx buf n out).1 = with_counter ctx (counter ctx + (n + 63) / 64) := by
  obtain ⟨hx, -, -, hself⟩ := wf_counter ctx hwf
  have h := salsa_encrypt_ctx ctx hx (counter ctx) buf n out
  rw [hself] at h
  exact h

/-! ## Well-formed contexts and the round trip -/

theorem salsa_context_new_wf : salsa_context_new.wf := by decide

theorem memcpy_bytes (dst src : List Nat) (n : Nat) (hd : ∀ b ∈ dst, b < 2 ^ 8)
    (hs : ∀ b ∈ src, b < 2 ^ 8) : ∀ b ∈ memcpy dst src n, b < 2 ^ 8 := by
  intro b hb
  unfold memcpy at hb
  rw [List.mem_map] at hb
  obtain ⟨i, -, rfl⟩ := hb
  split
  · exact rd_lt_of_forall (by norm_num) hs i
  · exact rd_lt_of_forall (by norm_num) hd i

theorem U8TO32_LITTLE_lt (a : List Nat) (off : Nat) : U8TO32_LITTLE a off < 2 ^ 32 :=
  Nat.mod_lt _ (by norm_num)

theorem set_key_fill_wf (ctx : salsa_context) (key : List Nat) (keylen : Int)
    (iv expand : List Nat) (j : Nat) (hwf : ctx.wf) (hk : ∀ b ∈ key, b < 2 ^ 8)
    (hv : ∀ b ∈ iv, b < 2 ^ 8) : (set_key_fill ctx key keylen iv expand j).wf := by
  obtain ⟨wk, wv, wx, bk, bv, bx⟩ := hwf
  have hx := set_key_fill_state ctx key keylen iv expand j wx wv
  have hkey : (set_key_fill ctx key keylen iv expand j).key = memcpy ctx.key key keylen.toNat := rfl
  have hiv : (set_key_fill ctx key keylen iv expand j).iv =
      [rd iv 0, rd iv 1, rd iv 2, rd iv 3, rd iv 4, rd iv 5, rd iv 6, rd iv 7,
       0, 0, 0, 0, 0, 0, 0, 0] := set_key_iv ctx.iv iv wv
  have hvr : ∀ k, rd iv k < 2 ^ 8 := rd_lt_of_forall (by norm_num) hv
  refine ⟨?_, ?_, ?_, ?_, ?_, ?_⟩
  · rw [hkey, memcpy_length, wk]
  · rw [hiv]; rfl
  · rw [hx]; rfl
  · rw [hkey]; exact memcpy_bytes _ _ _ bk hk
  · rw [hiv]
    simp only [List.forall_mem_cons]
    refine ⟨hvr _, hvr _, hvr _, hvr _, hvr _, hvr _, hvr _, hvr _, ?_⟩
    norm_num
  · rw [hx]
    simp only [List.forall_mem_cons]
    refine ⟨U8TO32_LITTLE_lt _ _, U8TO32_LITTLE_lt _ _, U8TO32_LITTLE_lt _ _,
      U8TO32_LITTLE_lt _ _, U8TO32_LITTLE_lt _ _, U8TO32_LITTLE_lt _ _, U8TO32_LITTLE_lt _ _,
      U8TO32_LITTLE_lt _ _, by norm_num, by norm_num, U8TO32_LITTLE_lt _ _,
      U8TO32_LITTLE_lt _ _, U8TO32_LITTLE_lt _ _, U8TO32_LITTLE_lt _ _, U8TO32_LITTLE_lt _ _,
      U8TO32_LITTLE_lt _ _, ?_⟩
    simp

/-- Key setup keeps the context well-formed. -/
theorem salsa_set_key_and_iv_wf (ctx : salsa_context) (key : List Nat) (keylen : Int)
    (iv : List Nat) (hwf : ctx.wf) (hk : ∀ b ∈ key, b < 2 ^ 8) (hv : ∀ b ∈ iv, b < 2 ^ 8) :
    (salsa_set_key_and_iv ctx key keylen iv).2.wf := by
  unfold salsa_set_key_and_iv
  split
  · exact set_key_fill_wf _ _ _ _ _ _ hwf hk hv
  · split
    · exact set_key_fill_wf _ _ _ _ _ _ hwf hk hv
    · exact hwf

theorem with_counter_wf (ctx : salsa_context) (hwf : ctx.wf) (c : Nat) : (with_counter ctx c).wf := by
  obtain ⟨wk, wv, wx, bk, bv, bx⟩ := hwf
  refine ⟨wk, wv, ?_, bk, bv, ?_⟩
  · simp [with_counter, wx]
  · intro w hw
    unfold with_counter at hw
    simp only at hw
    rcases List.mem_or_eq_of_mem_set hw with h | rfl
    · rcases List.mem_or_eq_of_mem_set h with h | rfl
      · exact bx w h
      · exact Nat.mod_lt _ (by norm_num)
    · exact Nat.mod_lt _ (by norm_num)

/-- The stream processor keeps the context well-formed. -/
theorem salsa_encrypt_wf (ctx : salsa_context) (hwf : ctx.wf) (buf : List Nat) (n : Nat)
    (out : List Nat) : (salsa_encrypt ctx buf n out).1.wf := by
  rw [salsa_encrypt_ctx_wf ctx hwf]
  exact with_counter_wf ctx hwf _

/-- Decrypting, from the same context, what was encrypted gives the input back. -/
theorem salsa_round_trip (ctx : salsa_context) (hwf : ctx.wf) (B : List Nat)
    (hB : ∀ b ∈ B, b < 2 ^ 8) (out1 out2 : List Nat) (ho1 : B.length ≤ out1.length)
    (hb1 : ∀ b ∈ out1, b < 2 ^ 8) (ho2 : B.length ≤ out2.length) :
    (salsa_decrypt ctx (salsa_encrypt ctx B B.length out1).2 B.length out2).2.take B.length
      = B := by
  have hBr : ∀ k, rd B k < 2 ^ 8 := rd_lt_of_forall (by norm_num) hB
  have ho1r : ∀ k, rd out1 k < 2 ^ 8 := rd_lt_of_forall (by norm_num) hb1
  obtain ⟨e1, e2⟩ := salsa_encrypt_out ctx hwf B hBr B.length out1 ho1
  have hc : ∀ k, rd (salsa_encrypt ctx B B.length out1).2 k < 2 ^ 8 := by
    intro k
    rw [e2 k]
    split
    · refine Nat.xor_lt_two_pow (hBr k) ?_
      rw [rd_KS _ _ _ (Nat.mod_lt _ (by norm_num))]
      exact byte_of_words_lt _ _
    · exact ho1r k
  obtain ⟨d1, d2⟩ := salsa_encrypt_out ctx hwf (salsa_encrypt ctx B B.length out1).2 hc
    B.length out2 ho2
  unfold salsa_decrypt
  apply List.ext_getElem
  · rw [List.length_take, d1]; omega
  · intro i h1 h2
    have hd := d2 i
    rw [if_pos h2, e2 i, if_pos h2, Nat.xor_cancel_right] at hd
    unfold rd at hd
    rw [List.getD_eq_getElem _ _ (by rw [d1]; omega), List.getD_eq_getElem _ _ h2] at hd
    rw [List.getElem_take]
    exact hd

/-- The return value of `salsa_set_key_and_iv` and the context on failure. -/
theorem salsa_set_key_and_iv_ret (ctx : salsa_context) (key : List Nat) (keylen : Int)
    (iv : List Nat) :
    ((salsa_set_key_and_iv ctx key keylen iv).1 = 0 ↔ (1 ≤ keylen ∧ keylen ≤ 32)) ∧
    ((salsa_set_key_and_iv ctx key keylen iv).1 = -1 ↔ ¬ (1 ≤ keylen ∧ keylen ≤ 32)) ∧
    ((salsa_set_key_and_iv ctx key keylen iv).1 = -1 →
      (salsa_set_key_and_iv ctx key keylen iv).2 = ctx) := by
  unfold salsa_set_key_and_iv
  by_cases h1 : keylen = 32
  · rw [if_pos h1]
    simp only
    refine ⟨⟨fun _ => by omega, fun _ => trivial⟩, ⟨fun h => ?_, fun h => ?_⟩, fun h => ?_⟩
    · exact absurd h (by decide)
    · omega
    · exact absurd h (by decide)
  · rw [if_neg h1]
    by_cases h2 : keylen < 32 ∧ keylen > 0
    · rw [if_pos h2]
      simp only
      refine ⟨⟨fun _ => by omega, fun _ => trivial⟩, ⟨fun h => ?_, fun h => ?_⟩, fun h => ?_⟩
      · exact absurd h (by decide)
      · omega
      · exact absurd h (by decide)
    · rw [if_neg h2]
      simp only
      refine ⟨⟨fun h => ?_, fun h => ?_⟩, ⟨fun _ => by omega, fun _ => trivial⟩, fun _ => trivial⟩
      · exact absurd h (by decide)
      · omega

theorem rd_replicate_zero (n j : Nat) : rd (List.replicate n 0) j = 0 := by
  unfold rd
  by_cases h : j < n
  · rw [List.getD_eq_getElem _ _ (by simpa using h)]; simp
  · rw [List.getD_eq_default _ _ (by simpa using h)]

set_option maxRecDepth 1000000 in
theorem zero_key_block :
    zero_key_context.wf ∧ counter zero_key_context = 0 ∧
    KS zero_key_context 0 = reference_keystream ∧
    (List.range 64).map (byte_of_words (salsa20 zero_key_context)) = reference_keystream := by
  decide

/-- For a key of 16 to 32 bytes the state after key setup does not depend on the
earlier contents of the context. -/
theorem set_key_state_long_key (ctx1 ctx2 : salsa_context) (h1 : ctx1.wf) (h2 : ctx2.wf)
    (key iv : List Nat) (keylen : Int) (h16 : 16 ≤ keylen) (h32 : keylen ≤ 32) :
    (salsa_set_key_and_iv ctx1 key keylen iv).2.x = (salsa_set_key_and_iv ctx2 key keylen iv).2.x := by
  obtain ⟨k1, v1, x1, -, -, -⟩ := h1
  obtain ⟨k2, v2, x2, -, -, -⟩ := h2
  have hm : ∀ off, off + 4 ≤ keylen.toNat →
      U8TO32_LITTLE (memcpy ctx1.key key keylen.toNat) off
        = U8TO32_LITTLE (memcpy ctx2.key key keylen.toNat) off := by
    intro off ho
    apply U8TO32_LITTLE_congr
    · rw [rd_memcpy _ _ _ _ (by omega), rd_memcpy _ _ _ _ (by omega), if_pos (by omega),
        if_pos (by omega)]
    · rw [rd_memcpy _ _ _ _ (by omega), rd_memcpy _ _ _ _ (by omega), if_pos (by omega),
        if_pos (by omega)]
    · rw [rd_memcpy _ _ _ _ (by omega), rd_memcpy _ _ _ _ (by omega), if_pos (by omega),
        if_pos (by omega)]
    · rw [rd_memcpy _ _ _ _ (by omega), rd_memcpy _ _ _ _ (by omega), if_pos (by omega),
        if_pos (by omega)]
  unfold salsa_set_key_and_iv
  by_cases hk : keylen = 32
  · rw [if_pos hk, if_pos hk]
    simp only
    rw [set_key_fill_state { ctx1 with keylen := 32 } key keylen iv key_expand_32 4 x1 v1,
      set_key_fill_state { ctx2 with keylen := 32 } key keylen iv key_expand_32 4 x2 v2]
    simp only
    rw [hm 0 (by omega), hm 4 (by omega), hm 8 (by omega), hm 12 (by omega),
      hm (4 * 4) (by omega), hm ((4 + 1) * 4) (by omega), hm ((4 + 2) * 4) (by omega),
      hm ((4 + 3) * 4) (by omega)]
  · have hs : keylen < 32 ∧ keylen > 0 := by omega
    rw [if_neg hk, if_neg hk, if_pos hs, if_pos hs]
    simp only
    rw [set_key_fill_state { ctx1 with keylen := 16 } key keylen iv key_expand_16 0 x1 v1,
      set_key_fill_state { ctx2 with keylen := 16 } key keylen iv key_expand_16 0 x2 v2]
    simp only
    rw [hm 0 (by omega), hm 4 (by omega), hm 8 (by omega), hm 12 (by omega)]

/-! ## The calls of `salsa20` made by the stream processor -/

theorem salsa_encrypt_zero (ctx : salsa_context) (buf out : List Nat) :
    salsa_encrypt ctx buf 0 out = (ctx, out) ∧ salsa_encrypt_calls ctx buf 0 out = [] := by
  constructor
  · simp [salsa_encrypt, full_block_loop, trailing_block]
  · simp [salsa_encrypt_calls, full_block_loop, full_block_loop_calls]

theorem full_block_loop_calls_spec (ctx0 : salsa_context) (hx : 10 ≤ ctx0.x.length)
    (buf : List Nat) :
    ∀ (fuel : Nat) (s : enc_state) (c : Nat), s.ctx = with_counter ctx0 c →
      s.buflen / 64 ≤ fuel →
      full_block_loop_calls buf fuel s
        = (List.range (s.buflen / 64)).map (fun k => with_counter ctx0 (c + k)) := by
  intro fuel
  induction fuel with
  | zero =>
    intro s c _ hf
    have h0 : s.buflen / 64 = 0 := by omega
    rw [h0]
    rfl
  | succ fuel ih =>
    intro s c hc hf
    by_cases hge : s.buflen ≥ 64
    · have hstep : full_block_loop_calls buf (fuel + 1) s
          = s.ctx :: full_block_loop_calls buf fuel (full_block_step buf s) := by
        simp only [full_block_loop_calls, if_pos hge]
      have hc' : (full_block_step buf s).ctx = with_counter ctx0 (c + 1) := by
        simp only [full_block_step, hc]
        exact counter_incr_with_counter ctx0 hx c
      have hlen : (full_block_step buf s).buflen = s.buflen - 64 := by
        simp only [full_block_step]
      have hi := ih (full_block_step buf s) (c + 1) hc' (by rw [hlen]; omega)
      rw [hlen] at hi
      have e : s.buflen / 64 = (s.buflen - 64) / 64 + 1 := by omega
      rw [hstep, hi, e, List.range_succ_eq_map, List.map_cons, List.map_map, hc]
      refine congrArg₂ _ rfl ?_
      apply List.map_congr_left
      intro k _
      simp only [Function.comp, Nat.succ_eq_add_one]
      have e2 : c + 1 + k = c + (k + 1) := by omega
      rw [e2]
    · have hstep : full_block_loop_calls buf (fuel + 1) s = [] := by
        simp only [full_block_loop_calls, if_neg hge]
      have h0 : s.buflen / 64 = 0 := by omega
      rw [hstep, h0]
      rfl

theorem salsa_encrypt_calls_spec (ctx0 : salsa_context) (hx : 10 ≤ ctx0.x.length) (c : Nat)
    (buf : List Nat) (n : Nat) (out : List Nat) :
    salsa_encrypt_calls (with_counter ctx0 c) buf n out
      = (List.range ((n + 63) / 64)).map (fun k => with_counter ctx0 (c + k)) := by
  have h1 := full_block_loop_calls_spec ctx0 hx buf n
    { ctx := with_counter ctx0 c, buflen := n, bufp := 0, outp := 0, out := out } c
  have h2 := full_block_loop_ctx ctx0 hx buf n
    { ctx := with_counter ctx0 c, buflen := n, bufp := 0, outp := 0, out := out } c
  simp only at h1 h2
  have h1 := h1 trivial (Nat.div_le_self n 64)
  obtain ⟨l1, l2⟩ := h2 trivial (Nat.div_le_self n 64)
  unfold salsa_encrypt_calls
  simp only
  rw [h1, l1, l2]
  by_cases hr : n % 64 > 0
  · have e : (n + 63) / 64 = n / 64 + 1 := by omega
    rw [if_pos hr, e, List.range_succ, List.map_append]
    rfl
  · have e : (n + 63) / 64 = n / 64 := by omega
    rw [if_neg hr, e, List.append_nil]

/-- The call trace of `salsa_encrypt` on a well-formed context. -/
theorem salsa_encrypt_calls_wf (ctx : salsa_context) (hwf : ctx.wf) (buf : List Nat) (n : Nat)
    (out : List Nat) :
    salsa_encrypt_calls ctx buf n out
      = (List.range ((n + 63) / 64)).map (fun k => with_counter ctx (counter ctx + k)) := by
  obtain ⟨hx, -, -, hself⟩ := wf_counter ctx hwf
  have h := salsa_encrypt_calls_spec ctx hx (counter ctx) buf n out
  rw [hself] at h
  exact h

theorem calls_counters (ctx : salsa_context) (hx : 10 ≤ ctx.x.length) (c m : Nat) :
    ((List.range m).map (fun k => with_counter ctx (c + k))).map counter
      = (List.range m).map (fun k => (c + k) % 2 ^ 64) := by
  rw [List.map_map]
  apply List.map_congr_left
  intro k _
  simp only [Function.comp]
  exact counter_with_counter ctx hx (c + k)

theorem counters_nodup (c m : Nat) (hm : m ≤ 2 ^ 64) :
    ((List.range m).map (fun k => (c + k) % 2 ^ 64)).Nodup := by
  apply List.Nodup.map_on _ (List.nodup_range m)
  intro a ha b hb hab
  rw [List.mem_range] at ha hb
  omega

/-! ## The rotation and the reference double round -/

theorem ROTL32_testBit (v n i : Nat) (hv : v < 2 ^ 32) (hn0 : 0 < n) (hn : n < 32) (hi : i < 32) :
    (ROTL32 v n).testBit i = v.testBit ((i + (32 - n)) % 32) := by
  unfold ROTL32
  rw [Nat.testBit_or, Nat.testBit_mod_two_pow, Nat.testBit_shiftLeft, Nat.testBit_shiftRight]
  by_cases h : n ≤ i
  · have e1 : (i + (32 - n)) % 32 = i - n := by omega
    have e2 : v.testBit (32 - n + i) = false :=
      Nat.testBit_lt_two_pow (lt_of_lt_of_le hv (Nat.pow_le_pow_right (by norm_num) (by omega)))
    rw [e1, e2]
    simp [hi, h]
  · have e1 : (i + (32 - n)) % 32 = 32 - n + i := by omega
    rw [e1]
    simp [h]

theorem ROTL32_lt (v n : Nat) (hv : v < 2 ^ 32) :
    ROTL32 v n < 2 ^ 32 := by
  unfold ROTL32
  apply Nat.or_lt_two_pow (Nat.mod_lt _ (by norm_num))
  rw [Nat.shiftRight_eq_div_pow]
  calc v / 2 ^ (32 - n) ≤ v := Nat.div_le_self _ _
    _ < 2 ^ 32 := hv

theorem ROTL32_eq_rotl32 (v n : Nat) (hv : v < 2 ^ 32) (hn0 : 0 < n) (hn : n < 32) :
    ROTL32 v n = rotl32 v n := by
  unfold ROTL32 rotl32
  have hq : v / 2 ^ (32 - n) < 2 ^ n := by
    rw [Nat.div_lt_iff_lt_mul (Nat.pow_pos (by norm_num))]
    rw [← Nat.pow_add]
    have : n + (32 - n) = 32 := by omega
    rw [this]; exact hv
  have e : (v <<< n) % 2 ^ 32 = 2 ^ n * (v % 2 ^ (32 - n)) := by
    rw [Nat.shiftLeft_eq, Nat.mul_comm v]
    have : (2 : Nat) ^ 32 = 2 ^ n * 2 ^ (32 - n) := by
      rw [← Nat.pow_add]; congr 1; omega
    rw [this, Nat.mul_mod_mul_left]
  rw [e, Nat.shiftRight_eq_div_pow, ← Nat.mul_add_lt_is_or hq, Nat.mul_comm]


theorem upd_eq_rotl32 (z : List Nat) (b a c n : Nat) (hn0 : 0 < n) (hn : n < 32) :
    upd z b a c n = z.set b (rd z b ^^^ rotl32 ((rd z a + rd z c) % 2 ^ 32) n) := by
  unfold upd
  rw [ROTL32_eq_rotl32 _ n (Nat.mod_lt _ (by norm_num)) hn0 hn]

theorem quarterround_eq_upd (z : List Nat) (a b c d : Nat) :
    quarterround z a b c d = upd (upd (upd (upd z b a d 7) c b a 9) d c b 13) a d c 18 := by
  unfold quarterround
  simp only
  rw [upd_eq_rotl32 _ _ _ _ 18 (by norm_num) (by norm_num),
    upd_eq_rotl32 _ _ _ _ 13 (by norm_num) (by norm_num),
    upd_eq_rotl32 _ _ _ _ 9 (by norm_num) (by norm_num),
    upd_eq_rotl32 _ _ _ _ 7 (by norm_num) (by norm_num)]

theorem salsa20_round_eq_doubleround (z : List Nat) : salsa20_round z = doubleround z := by
  unfold doubleround rowround columnround salsa20_round
  simp only [quarterround_eq_upd]

theorem salsa20_mix_eq_doubleround (x : List Nat) :
    salsa20_mix x = Nat.iterate doubleround 10 (idx16.map (fun i => rd x i)) := by
  unfold salsa20_mix
  have : salsa20_round = doubleround := funext salsa20_round_eq_doubleround
  rw [this]

/-! ## The mixing step is invertible -/

theorem upd_upd (z : List Nat) (b a c n : Nat) (hba : b ≠ a) (hbc : b ≠ c) :
    upd (upd z b a c n) b a c n = z := by
  unfold upd
  have ea : rd (z.set b (rd z b ^^^ ROTL32 ((rd z a + rd z c) % 2 ^ 32) n)) a = rd z a := by
    rw [rd_set, if_neg (fun h => hba h.1)]
  have ec : rd (z.set b (rd z b ^^^ ROTL32 ((rd z a + rd z c) % 2 ^ 32) n)) c = rd z c := by
    rw [rd_set, if_neg (fun h => hbc h.1)]
  rw [ea, ec]
  apply ext_rd (by simp)
  intro j
  simp only [rd_set, List.length_set]
  by_cases h : b = j ∧ b < z.length
  · obtain ⟨rfl, hlt⟩ := h
    simp [hlt, Nat.xor_cancel_right]
  · rw [if_neg h, if_neg h]

theorem salsa20_round_inv_round (z : List Nat) : salsa20_round_inv (salsa20_round z) = z := by
  unfold salsa20_round_inv salsa20_round
  simp (disch := decide) only [upd_upd]

theorem salsa20_round_round_inv (z : List Nat) : salsa20_round (salsa20_round_inv z) = z := by
  unfold salsa20_round_inv salsa20_round
  simp (disch := decide) only [upd_upd]

theorem upd_is_state (z : List Nat) (b a c n : Nat) (hz : is_state z) : is_state (upd z b a c n) := by
  obtain ⟨hl, hw⟩ := hz
  refine ⟨by simp [upd, hl], ?_⟩
  intro w hmem
  unfold upd at hmem
  rcases List.mem_or_eq_of_mem_set hmem with h | rfl
  · exact hw w h
  · exact Nat.xor_lt_two_pow (rd_lt_of_forall (by norm_num) hw b)
      (ROTL32_lt _ _ (Nat.mod_lt _ (by norm_num)))

theorem salsa20_round_is_state (z : List Nat) (hz : is_state z) : is_state (salsa20_round z) := by
  unfold salsa20_round
  simp only
  repeat apply upd_is_state
  exact hz

theorem salsa20_round_inv_is_state (z : List Nat) (hz : is_state z) :
    is_state (salsa20_round_inv z) := by
  unfold salsa20_round_inv
  simp only
  repeat apply upd_is_state
  exact hz

theorem iterate_is_state (f : List Nat → List Nat) (hf : ∀ z, is_state z → is_state (f z))
    (n : Nat) (z : List Nat) (hz : is_state z) : is_state (Nat.iterate f n z) := by
  induction n generalizing z with
  | zero => exact hz
  | succ n ih => exact ih (f z) (hf z hz)

theorem copy16 (x : List Nat) (hx : x.length = 16) : idx16.map (fun i => rd x i) = x :=
  (length16 x hx).symm

theorem mix_bijOn :
    Set.BijOn (Nat.iterate salsa20_round 10) {z | is_state z} {z | is_state z} := by
  have hinv : Set.InvOn (Nat.iterate salsa20_round_inv 10) (Nat.iterate salsa20_round 10)
      {z | is_state z} {z | is_state z} :=
    ⟨fun z _ => Function.LeftInverse.iterate salsa20_round_inv_round 10 z,
      fun z _ => Function.RightInverse.iterate salsa20_round_round_inv 10 z⟩
  exact hinv.bijOn (fun z hz => iterate_is_state _ salsa20_round_is_state 10 z hz)
    (fun z hz => iterate_is_state _ salsa20_round_inv_is_state 10 z hz)

/-! ## The keystream block of `salsa20` -/

theorem rd_idx16_map (f : Nat → Nat) (i : Nat) (hi : i < 16) : rd (idx16.map f) i = f i := by
  have : i = 0 ∨ i = 1 ∨ i = 2 ∨ i = 3 ∨ i = 4 ∨ i = 5 ∨ i = 6 ∨ i = 7 ∨ i = 8 ∨ i = 9 ∨
      i = 10 ∨ i = 11 ∨ i = 12 ∨ i = 13 ∨ i = 14 ∨ i = 15 := by omega
  rcases this with h | h | h | h | h | h | h | h | h | h | h | h | h | h | h | h <;>
    subst h <;> rfl

theorem rd_salsa20 (ctx : salsa_context) (i : Nat) (hi : i < 16) :
    rd (salsa20 ctx) i = (rd (salsa20_mix ctx.x) i + rd ctx.x i) % 2 ^ 32 := by
  unfold salsa20
  simp only
  rw [rd_idx16_map _ i hi]
  rfl

theorem byte_of_words_salsa20 (ctx : salsa_context) (i k : Nat) (hi : i < 16) (hk : k < 4) :
    byte_of_words (salsa20 ctx) (4 * i + k)
      = rd (le_bytes ((rd (salsa20_mix ctx.x) i + rd ctx.x i) % 2 ^ 32)) k := by
  unfold byte_of_words
  have e1 : (4 * i + k) / 4 = i := by omega
  have e2 : (4 * i + k) % 4 = k := by omega
  rw [e1, e2, rd_salsa20 ctx i hi, Nat.shiftRight_eq_div_pow]
  have : k = 0 ∨ k = 1 ∨ k = 2 ∨ k = 3 := by omega
  rcases this with h | h | h | h <;> subst h <;> simp [le_bytes, rd]

/-! ## Splitting and XOR-linearity of the stream processor -/

theorem rd_take (l : List Nat) (n j : Nat) : rd (l.take n) j = if j < n then rd l j else 0 := by
  unfold rd
  rw [List.getD_eq_getElem?_getD, List.getD_eq_getElem?_getD, List.getElem?_take]
  split <;> rfl

theorem rd_append (a b : List Nat) (j : Nat) :
    rd (a ++ b) j = if j < a.length then rd a j else rd b (j - a.length) := by
  unfold rd
  rw [List.getD_eq_getElem?_getD, List.getD_eq_getElem?_getD, List.getD_eq_getElem?_getD]
  split
  · rw [List.getElem?_append_left (by assumption)]
  · rw [List.getElem?_append_right (by omega)]

theorem rd_xor_buffers (a d : List Nat) (h : a.length = d.length) (j : Nat) :
    rd (xor_buffers a d) j = rd a j ^^^ rd d j := by
  unfold rd xor_buffers
  by_cases hj : j < a.length
  · rw [List.getD_eq_getElem _ _ (by simp; omega), List.getD_eq_getElem _ _ hj,
      List.getD_eq_getElem _ _ (by omega)]
    simp
  · rw [List.getD_eq_default _ _ (by simp; omega), List.getD_eq_default _ _ (by omega),
      List.getD_eq_default _ _ (by omega)]
    rfl

theorem xor_buffers_length (a d : List Nat) (h : a.length = d.length) :
    (xor_buffers a d).length = a.length := by
  simp [xor_buffers, h]

theorem rd_out_of_range (l : List Nat) (j : Nat) (h : l.length ≤ j) : rd l j = 0 := by
  unfold rd
  exact List.getD_eq_default _ _ h

/-- Splitting the input of `salsa_encrypt` after a whole number of blocks. -/
theorem salsa_encrypt_split (ctx : salsa_context) (hwf : ctx.wf) (A B : List Nat)
    (hA : ∀ b ∈ A, b < 2 ^ 8) (hB : ∀ b ∈ B, b < 2 ^ 8) (m : Nat) (hm : A.length = 64 * m)
    (outA outB outAB : List Nat) (hoA : A.length ≤ outA.length) (hoB : B.length ≤ outB.length)
    (hoAB : A.length + B.length ≤ outAB.length) :
    (salsa_encrypt ctx A A.length outA).2.take A.length ++
        (salsa_encrypt (salsa_encrypt ctx A A.length outA).1 B B.length outB).2.take B.length
      = (salsa_encrypt ctx (A ++ B) (A.length + B.length) outAB).2.take (A.length + B.length) ∧
    (salsa_encrypt (salsa_encrypt ctx A A.length outA).1 B B.length outB).1
      = (salsa_encrypt ctx (A ++ B) (A.length + B.length) outAB).1 := by
  obtain ⟨hx, -, -, hself⟩ := wf_counter ctx hwf
  have hAr : ∀ k, rd A k < 2 ^ 8 := rd_lt_of_forall (by norm_num) hA
  have hBr : ∀ k, rd B k < 2 ^ 8 := rd_lt_of_forall (by norm_num) hB
  have hABr : ∀ k, rd (A ++ B) k < 2 ^ 8 := by
    intro k; rw [rd_append]; split
    · exact hAr k
    · exact hBr _
  have hc1 := salsa_encrypt_ctx_wf ctx hwf A A.length outA
  have e1 : (A.length + 63) / 64 = m := by omega
  rw [hc1, e1]
  obtain ⟨a1, a2⟩ := salsa_encrypt_out ctx hwf A hAr A.length outA hoA
  obtain ⟨b1, b2⟩ := salsa_encrypt_spec ctx hx (counter ctx + m) B hBr B.length outB hoB
  obtain ⟨c1, c2⟩ := salsa_encrypt_out ctx hwf (A ++ B) hABr (A.length + B.length) outAB hoAB
  constructor
  · apply ext_rd
    · rw [List.length_append, List.length_take, List.length_take, List.length_take, a1, b1, c1]
      omega
    · intro j
      rw [rd_append, List.length_take, a1, Nat.min_eq_left hoA, rd_take, rd_take, rd_take]
      by_cases h1 : j < A.length
      · have h2 : j < A.length + B.length := by omega
        rw [if_pos h1, if_pos h1, if_pos h2, a2 j, c2 j, if_pos h1, if_pos h2, rd_append,
          if_pos h1]
      · rw [if_neg h1]
        by_cases h3 : j - A.length < B.length
        · have h2 : j < A.length + B.length := by omega
          have e2 : counter ctx + m + (j - A.length) / 64 = counter ctx + j / 64 := by omega
          have e3 : (j - A.length) % 64 = j % 64 := by omega
          rw [if_pos h3, if_pos h2, b2 _, c2 j, if_pos h3, if_pos h2, rd_append, if_neg h1,
            e2, e3, KS_mod]
        · have h2 : ¬ j < A.length + B.length := by omega
          rw [if_neg h3, if_neg h2]
  · rw [salsa_encrypt_ctx ctx hx (counter ctx + m) B B.length outB,
      salsa_encrypt_ctx_wf ctx hwf (A ++ B) (A.length + B.length) outAB]
    have e : counter ctx + m + (B.length + 63) / 64
        = counter ctx + (A.length + B.length + 63) / 64 := by omega
    rw [e]

/-- XOR-ing the input of `salsa_encrypt` with a buffer XORs its output with it. -/
theorem salsa_encrypt_xor (ctx : salsa_context) (hwf : ctx.wf) (A D : List Nat)
    (hA : ∀ b ∈ A, b < 2 ^ 8) (hD : ∀ b ∈ D, b < 2 ^ 8) (hl : A.length = D.length)
    (out1 out2 : List Nat) (ho1 : A.length ≤ out1.length) (ho2 : A.length ≤ out2.length) :
    (salsa_encrypt ctx (xor_buffers A D) A.length out1).2.take A.length
      = xor_buffers ((salsa_encrypt ctx A A.length out2).2.take A.length) D := by
  have hAr : ∀ k, rd A k < 2 ^ 8 := rd_lt_of_forall (by norm_num) hA
  have hDr : ∀ k, rd D k < 2 ^ 8 := rd_lt_of_forall (by norm_num) hD
  have hXr : ∀ k, rd (xor_buffers A D) k < 2 ^ 8 := by
    intro k; rw [rd_xor_buffers A D hl]; exact Nat.xor_lt_two_pow (hAr k) (hDr k)
  obtain ⟨a1, a2⟩ := salsa_encrypt_out ctx hwf (xor_buffers A D) hXr A.length out1 ho1
  obtain ⟨b1, b2⟩ := salsa_encrypt_out ctx hwf A hAr A.length out2 ho2
  have hlt : ((salsa_encrypt ctx A A.length out2).2.take A.length).length = D.length := by
    rw [List.length_take, b1]; omega
  apply ext_rd
  · rw [xor_buffers_length _ _ hlt, List.length_take, List.length_take, a1, b1]; omega
  · intro j
    rw [rd_xor_buffers _ _ hlt, rd_take, rd_take, a2 j, b2 j]
    by_cases h : j < A.length
    · rw [if_pos h, if_pos h, if_pos h, if_pos h, rd_xor_buffers A D hl, Nat.xor_assoc,
        Nat.xor_comm (rd D j), ← Nat.xor_assoc]
    · rw [if_neg h, if_neg h, rd_out_of_range D j (by omega)]
      rfl

/-! ## The claims -/

/-- C1 (round trip): two fresh contexts initialised with the same key of 1 to 32
bytes and the same 8-byte nonce are the same context; key setup returns 0, and
decrypting with it the output of encrypting a byte buffer `B` with it writes
exactly `B` back, for every length of `B` and for any output buffers that are
large enough. -/
theorem round_trip_after_key_setup (key : List Nat) (keylen : Int) (iv B out1 out2 : List Nat)
    (h1 : 1 ≤ keylen) (h32 : keylen ≤ 32) (hk : is_bytes key keylen.toNat)
    (hv : is_bytes iv 8) (hB : ∀ b ∈ B, b < 2 ^ 8)
    (ho1 : B.length ≤ out1.length) (hb1 : ∀ b ∈ out1, b < 2 ^ 8)
    (ho2 : B.length ≤ out2.length) :
    (salsa_set_key_and_iv salsa_context_new key keylen iv).1 = 0 ∧
    (salsa_decrypt (salsa_set_key_and_iv salsa_context_new key keylen iv).2
        (salsa_encrypt (salsa_set_key_and_iv salsa_context_new key keylen iv).2
          B B.length out1).2 B.length out2).2.take B.length
      = B :=
  ⟨(salsa_set_key_and_iv_ret salsa_context_new key keylen iv).1.2 ⟨h1, h32⟩,
    salsa_round_trip _
      (salsa_set_key_and_iv_wf salsa_context_new key keylen iv salsa_context_new_wf hk.2 hv.2)
      B hB out1 out2 ho1 hb1 ho2⟩

theorem round_trip_after_key_setup_witness :
    ((1 : Int) ≤ 3 ∧ (3 : Int) ≤ 32 ∧ is_bytes [1, 2, 3] (3 : Int).toNat ∧
      is_bytes [0, 0, 0, 0, 0, 0, 0, 9] 8 ∧ (∀ b ∈ [7, 8, 9], b < 2 ^ 8) ∧
      [7, 8, 9].length ≤ [0, 0, 0, 0].length ∧ (∀ b ∈ [0, 0, 0, 0], b < 2 ^ 8) ∧
      [7, 8, 9].length ≤ [5, 5, 5].length) ∧
    (salsa_set_key_and_iv salsa_context_new [1, 2, 3] 3 [0, 0, 0, 0, 0, 0, 0, 9]).1 = 0 ∧
    (salsa_decrypt (salsa_set_key_and_iv salsa_context_new [1, 2, 3] 3 [0, 0, 0, 0, 0, 0, 0, 9]).2
        (salsa_encrypt (salsa_set_key_and_iv salsa_context_new [1, 2, 3] 3
          [0, 0, 0, 0, 0, 0, 0, 9]).2 [7, 8, 9] [7, 8, 9].length [0, 0, 0, 0]).2
        [7, 8, 9].length [5, 5, 5]).2.take [7, 8, 9].length
      = [7, 8, 9] :=
  ⟨by decide,
    round_trip_after_key_setup [1, 2, 3] 3 [0, 0, 0, 0, 0, 0, 0, 9] [7, 8, 9] [0, 0, 0, 0] [5, 5, 5]
      (by decide) (by decide) (by decide) (by decide) (by decide) (by decide) (by decide)
      (by decide)⟩

/-- C2 (known vector): for the fresh context initialised with the all-zero
32-byte key and the all-zero nonce, key setup returns 0, the first keystream
block of `salsa20` read as bytes is the published reference keystream, and so is
the output of `salsa_encrypt` on 64 zero bytes, whatever the output buffer of 64
bytes held before. -/
theorem known_vector_zero_key (out : List Nat) (ho : out.length = 64) :
    (salsa_set_key_and_iv salsa_context_new (List.replicate 32 0) 32 (List.replicate 8 0)).1 = 0 ∧
    (List.range 64).map (byte_of_words (salsa20 zero_key_context)) = reference_keystream ∧
    (salsa_encrypt zero_key_context (List.replicate 64 0) 64 out).2 = reference_keystream := by
  obtain ⟨hwf, hc, hks, hb⟩ := zero_key_block
  refine ⟨by decide, hb, ?_⟩
  obtain ⟨e1, e2⟩ := salsa_encrypt_out zero_key_context hwf (List.replicate 64 0)
    (fun k => by rw [rd_replicate_zero]; norm_num) 64 out (by omega)
  have hl : (salsa_encrypt zero_key_context (List.replicate 64 0) 64 out).2.length
      = reference_keystream.length := e1.trans ho
  apply ext_rd hl
  intro j
  rw [e2 j, hc]
  by_cases hj : j < 64
  · have e3 : (0 + j / 64) % 2 ^ 64 = 0 := by omega
    have e4 : j % 64 = j := by omega
    rw [if_pos hj, rd_replicate_zero, Nat.zero_xor, e3, e4, hks]
  · rw [if_neg hj]
    unfold rd
    rw [List.getD_eq_default _ _ (by omega),
      List.getD_eq_default _ _ (by simp [reference_keystream]; omega)]

theorem known_vector_zero_key_witness :
    (List.replicate 64 7).length = 64 ∧
    (salsa_set_key_and_iv salsa_context_new (List.replicate 32 0) 32 (List.replicate 8 0)).1 = 0 ∧
    (List.range 64).map (byte_of_words (salsa20 zero_key_context)) = reference_keystream ∧
    (salsa_encrypt zero_key_context (List.replicate 64 0) 64 (List.replicate 64 7)).2
      = reference_keystream :=
  ⟨by decide, known_vector_zero_key (List.replicate 64 7) (by decide)⟩

/-- C3 (stream output): for a well-formed context with counter `c0`, an input of
`n` bytes and an output buffer of at least `n` bytes, `salsa_encrypt` keeps the
length of the output buffer, leaves every byte from index `n` on as it was, and
writes at every index `i < n` the byte
`in[i] XOR KS(ctx, (c0 + i / 64) mod 2^64)[i mod 64]`. The word-wise path of
the full blocks and the byte-wise path of the trailing block are both part of
the function this is proved about. -/
theorem stream_output_formula (ctx : salsa_context) (hwf : ctx.wf) (buf : List Nat) (n : Nat)
    (hb : is_bytes buf n) (out : List Nat) (ho : n ≤ out.length) :
    (salsa_encrypt ctx buf n out).2.length = out.length ∧
    (∀ i, i < n → rd (salsa_encrypt ctx buf n out).2 i =
      rd buf i ^^^ rd (KS ctx ((counter ctx + i / 64) % 2 ^ 64)) (i % 64)) ∧
    (∀ i, n ≤ i → rd (salsa_encrypt ctx buf n out).2 i = rd out i) := by
  obtain ⟨h1, h2⟩ := salsa_encrypt_out ctx hwf buf hb.rd_lt n out ho
  refine ⟨h1, fun i hi => ?_, fun i hi => ?_⟩
  · rw [h2 i, if_pos hi]
  · rw [h2 i, if_neg (by omega)]

theorem stream_output_formula_witness :
    (zero_key_context.wf ∧ is_bytes (List.replicate 70 1) 70 ∧
      70 ≤ (List.replicate 72 0).length) ∧
    ((salsa_encrypt zero_key_context (List.replicate 70 1) 70 (List.replicate 72 0)).2.length
      = (List.replicate 72 0).length ∧
    (∀ i, i < 70 →
      rd (salsa_encrypt zero_key_context (List.replicate 70 1) 70 (List.replicate 72 0)).2 i =
        rd (List.replicate 70 1) i ^^^
          rd (KS zero_key_context ((counter zero_key_context + i / 64) % 2 ^ 64)) (i % 64)) ∧
    (∀ i, 70 ≤ i →
      rd (salsa_encrypt zero_key_context (List.replicate 70 1) 70 (List.replicate 72 0)).2 i
        = rd (List.replicate 72 0) i)) :=
  ⟨by decide,
    stream_output_formula zero_key_context (by decide) (List.replicate 70 1) 70 (by decide)
      (List.replicate 72 0) (by decide)⟩

/-- C4 (counter advance): for a well-formed context and an input of `n` bytes,
after `salsa_encrypt` the 64-bit counter is its old value plus `ceil(n / 64)`
modulo `2^64`: `N` full blocks add `N`, a length `64 k + r` with `0 < r < 64`
adds `k + 1`. Slot 8 is advanced modulo `2^32` and slot 9 by the number of
times slot 8 wrapped; in one counter step slot 9 is incremented exactly when
slot 8 goes from `2^32 - 1` to 0. -/
theorem counter_advance (ctx : salsa_context) (hwf : ctx.wf) (buf : List Nat) (n : Nat)
    (out : List Nat) :
    counter (salsa_encrypt ctx buf n out).1 = (counter ctx + (n + 63) / 64) % 2 ^ 64 ∧
    (∀ N, n = 64 * N → counter (salsa_encrypt ctx buf n out).1 = (counter ctx + N) % 2 ^ 64) ∧
    (∀ k r, 0 < r → r < 64 → n = 64 * k + r →
      counter (salsa_encrypt ctx buf n out).1 = (counter ctx + (k + 1)) % 2 ^ 64) ∧
    rd (salsa_encrypt ctx buf n out).1.x 8 = (rd ctx.x 8 + (n + 63) / 64) % 2 ^ 32 ∧
    rd (salsa_encrypt ctx buf n out).1.x 9
      = (rd ctx.x 9 + (rd ctx.x 8 + (n + 63) / 64) / 2 ^ 32) % 2 ^ 32 ∧
    (rd ctx.x 8 = 2 ^ 32 - 1 →
      rd (counter_incr ctx).x 8 = 0 ∧ rd (counter_incr ctx).x 9 = (rd ctx.x 9 + 1) % 2 ^ 32) ∧
    (rd ctx.x 8 ≠ 2 ^ 32 - 1 →
      rd (counter_incr ctx).x 8 = rd ctx.x 8 + 1 ∧ rd (counter_incr ctx).x 9 = rd ctx.x 9) := by
  obtain ⟨hx, h8, h9, hself⟩ := wf_counter ctx hwf
  have hc := salsa_encrypt_ctx_wf ctx hwf buf n out
  have hcnt : counter (salsa_encrypt ctx buf n out).1 = (counter ctx + (n + 63) / 64) % 2 ^ 64 := by
    rw [hc, counter_with_counter ctx hx]
  obtain ⟨r8, r9⟩ := rd_with_counter ctx hx (counter ctx + (n + 63) / 64)
  have hi : counter_incr ctx = with_counter ctx (counter ctx + 1) := by
    have := counter_incr_with_counter ctx hx (counter ctx)
    rw [hself] at this
    exact this
  obtain ⟨i8, i9⟩ := rd_with_counter ctx hx (counter ctx + 1)
  have hdef : counter ctx = rd ctx.x 9 * 2 ^ 32 + rd ctx.x 8 := rfl
  refine ⟨hcnt, fun N hN => ?_, fun k r hr0 hr hn => ?_, ?_, ?_, fun hw => ?_, fun hw => ?_⟩
  · rw [hcnt]; congr 2; omega
  · rw [hcnt]; congr 2; omega
  · rw [hc, r8]; omega
  · rw [hc, r9]; omega
  · rw [hi, i8, i9]; omega
  · rw [hi, i8, i9]; omega

theorem counter_advance_witness :
    wrap_context.wf ∧
    (counter (salsa_encrypt wrap_context (List.replicate 70 1) 70 (List.replicate 70 0)).1
      = (counter wrap_context + (70 + 63) / 64) % 2 ^ 64 ∧
    (∀ N, 70 = 64 * N →
      counter (salsa_encrypt wrap_context (List.replicate 70 1) 70 (List.replicate 70 0)).1
        = (counter wrap_context + N) % 2 ^ 64) ∧
    (∀ k r, 0 < r → r < 64 → 70 = 64 * k + r →
      counter (salsa_encrypt wrap_context (List.replicate 70 1) 70 (List.replicate 70 0)).1
        = (counter wrap_context + (k + 1)) % 2 ^ 64) ∧
    rd (salsa_encrypt wrap_context (List.replicate 70 1) 70 (List.replicate 70 0)).1.x 8
      = (rd wrap_context.x 8 + (70 + 63) / 64) % 2 ^ 32 ∧
    rd (salsa_encrypt wrap_context (List.replicate 70 1) 70 (List.replicate 70 0)).1.x 9
      = (rd wrap_context.x 9 + (rd wrap_context.x 8 + (70 + 63) / 64) / 2 ^ 32) % 2 ^ 32 ∧
    (rd wrap_context.x 8 = 2 ^ 32 - 1 →
      rd (counter_incr wrap_context).x 8 = 0 ∧
        rd (counter_incr wrap_context).x 9 = (rd wrap_context.x 9 + 1) % 2 ^ 32) ∧
    (rd wrap_context.x 8 ≠ 2 ^ 32 - 1 →
      rd (counter_incr wrap_context).x 8 = rd wrap_context.x 8 + 1 ∧
        rd (counter_incr wrap_context).x 9 = rd wrap_context.x 9)) :=
  ⟨by decide,
    counter_advance wrap_context (by decide) (List.replicate 70 1) 70 (List.replicate 70 0)⟩

/-- C5 (key length): `salsa_set_key_and_iv` returns 0 exactly when
`1 <= keylen <= 32` and -1 exactly otherwise (zero, negative, 33 and more), and
when it returns -1 the context after the call is the context before it, field
for field. -/
theorem key_length_acceptance (ctx : salsa_context) (key : List Nat) (keylen : Int)
    (iv : List Nat) :
    ((salsa_set_key_and_iv ctx key keylen iv).1 = 0 ↔ (1 ≤ keylen ∧ keylen ≤ 32)) ∧
    ((salsa_set_key_and_iv ctx key keylen iv).1 = -1 ↔ ¬ (1 ≤ keylen ∧ keylen ≤ 32)) ∧
    ((salsa_set_key_and_iv ctx key keylen iv).1 = -1 →
      (salsa_set_key_and_iv ctx key keylen iv).2 = ctx) :=
  salsa_set_key_and_iv_ret ctx key keylen iv

set_option maxRecDepth 1000000 in
/-- C6 (full reset), evaluated where it fails: a fresh context and a context
used before with a 32-byte key of `0xff` bytes are both given the 1-byte key
`01` and the all-zero nonce. Both calls return 0, but `memcpy` replaced only
byte 0 of `ctx->key`, so slots 1..4 and 11..14 of the used context still hold
bytes of the old key; the two states differ and so do the first keystream
blocks. -/
theorem stale_key_bytes_differ :
    salsa_context_new.wf ∧ used_context.wf ∧
    (salsa_set_key_and_iv salsa_context_new [1] 1 (List.replicate 8 0)).1 = 0 ∧
    (salsa_set_key_and_iv used_context [1] 1 (List.replicate 8 0)).1 = 0 ∧
    (salsa_set_key_and_iv salsa_context_new [1] 1 (List.replicate 8 0)).2.x
      = [0x61707865, 0x00000001, 0, 0, 0, 0x3120646e, 0, 0, 0, 0, 0x79622d36,
         0x00000001, 0, 0, 0, 0x6b206574] ∧
    (salsa_set_key_and_iv used_context [1] 1 (List.replicate 8 0)).2.x
      = [0x61707865, 0xffffff01, 0xffffffff, 0xffffffff, 0xffffffff, 0x3120646e, 0, 0, 0, 0,
         0x79622d36, 0xffffff01, 0xffffffff, 0xffffffff, 0xffffffff, 0x6b206574] ∧
    salsa20 (salsa_set_key_and_iv salsa_context_new [1] 1 (List.replicate 8 0)).2
      ≠ salsa20 (salsa_set_key_and_iv used_context [1] 1 (List.replicate 8 0)).2 := by
  decide

/-- C7 (layout, 32-byte key): for a well-formed prior context, a key of 32 bytes
and a nonce of 8 bytes, `salsa_set_key_and_iv(ctx, key, 32, nonce)` returns 0
and leaves the state with the little-endian words of `expand 32-byte k` in
slots 0, 5, 10, 15, of key bytes 0..15 in slots 1..4, of key bytes 16..31 in
slots 11..14, of the nonce in slots 6, 7, and zero in slots 8, 9. -/
theorem state_layout_key32 (ctx : salsa_context) (key iv : List Nat) (hwf : ctx.wf)
    (hk : is_bytes key 32) (hv : is_bytes iv 8) :
    (salsa_set_key_and_iv ctx key 32 iv).1 = 0 ∧
    (salsa_set_key_and_iv ctx key 32 iv).2.x =
      [load32 sigma 0, load32 key 0, load32 key 4, load32 key 8, load32 key 12,
       load32 sigma 4, load32 iv 0, load32 iv 4, 0, 0,
       load32 sigma 8, load32 key 16, load32 key 20, load32 key 24, load32 key 28,
       load32 sigma 12] := by
  obtain ⟨wk, wv, wx, -, -, -⟩ := hwf
  have hkr : ∀ k, rd key k < 2 ^ 8 := hk.rd_lt
  have hvr : ∀ k, rd iv k < 2 ^ 8 := hv.rd_lt
  unfold salsa_set_key_and_iv
  rw [if_pos rfl]
  refine ⟨rfl, ?_⟩
  simp only
  rw [set_key_fill_state { ctx with keylen := 32 } key 32 iv key_expand_32 4 wx wv]
  simp only
  have e : (32 : Int).toNat = 32 := rfl
  simp only [e]
  rw [U8TO32_LITTLE_memcpy _ _ _ _ (by omega) (by omega) hkr,
    U8TO32_LITTLE_memcpy _ _ _ _ (by omega) (by omega) hkr,
    U8TO32_LITTLE_memcpy _ _ _ _ (by omega) (by omega) hkr,
    U8TO32_LITTLE_memcpy _ _ _ _ (by omega) (by omega) hkr,
    U8TO32_LITTLE_memcpy _ _ _ _ (by omega) (by omega) hkr,
    U8TO32_LITTLE_memcpy _ _ _ _ (by omega) (by omega) hkr,
    U8TO32_LITTLE_memcpy _ _ _ _ (by omega) (by omega) hkr,
    U8TO32_LITTLE_memcpy _ _ _ _ (by omega) (by omega) hkr,
    U8TO32_LITTLE_eq_load32 iv 0 (hvr _) (hvr _) (hvr _) (hvr _),
    U8TO32_LITTLE_eq_load32 iv 4 (hvr _) (hvr _) (hvr _) (hvr _)]
  have s0 : U8TO32_LITTLE key_expand_32 0 = load32 sigma 0 := by decide
  have s1 : U8TO32_LITTLE key_expand_32 4 = load32 sigma 4 := by decide
  have s2 : U8TO32_LITTLE key_expand_32 8 = load32 sigma 8 := by decide
  have s3 : U8TO32_LITTLE key_expand_32 12 = load32 sigma 12 := by decide
  rw [s0, s1, s2, s3]

theorem state_layout_key32_witness :
    (used_context.wf ∧ is_bytes (List.replicate 32 1) 32 ∧ is_bytes (List.replicate 8 2) 8) ∧
    (salsa_set_key_and_iv used_context (List.replicate 32 1) 32 (List.replicate 8 2)).1 = 0 ∧
    (salsa_set_key_and_iv used_context (List.replicate 32 1) 32 (List.replicate 8 2)).2.x =
      [load32 sigma 0, load32 (List.replicate 32 1) 0, load32 (List.replicate 32 1) 4,
       load32 (List.replicate 32 1) 8, load32 (List.replicate 32 1) 12,
       load32 sigma 4, load32 (List.replicate 8 2) 0, load32 (List.replicate 8 2) 4, 0, 0,
       load32 sigma 8, load32 (List.replicate 32 1) 16, load32 (List.replicate 32 1) 20,
       load32 (List.replicate 32 1) 24, load32 (List.replicate 32 1) 28,
       load32 sigma 12] :=
  ⟨by decide,
    state_layout_key32 used_context (List.replicate 32 1) (List.replicate 8 2) (by decide)
      (by decide) (by decide)⟩

/-- C8 (layout, short key): for a well-formed prior context, a key of `L` bytes
with `0 < L < 32` and a nonce of 8 bytes, `salsa_set_key_and_iv` returns 0 and
leaves a state of 16 words with the little-endian words of `expand 16-byte k`
in slots 0, 5, 10, 15, slots 11..14 equal to slots 1..4, the nonce words in
slots 6, 7 and zero in slots 8, 9; when `16 <= L`, slots 1..4 are the
little-endian words of key bytes 0..15. -/
theorem state_layout_short_key (ctx : salsa_context) (key iv : List Nat) (keylen : Int) (hwf : ctx.wf)
    (h0 : 0 < keylen) (h32 : keylen < 32)
    (hk : is_bytes key keylen.toNat) (hv : is_bytes iv 8) :
    (salsa_set_key_and_iv ctx key keylen iv).1 = 0 ∧
    (salsa_set_key_and_iv ctx key keylen iv).2.x.length = 16 ∧
    rd (salsa_set_key_and_iv ctx key keylen iv).2.x 0 = load32 tau 0 ∧
    rd (salsa_set_key_and_iv ctx key keylen iv).2.x 5 = load32 tau 4 ∧
    rd (salsa_set_key_and_iv ctx key keylen iv).2.x 10 = load32 tau 8 ∧
    rd (salsa_set_key_and_iv ctx key keylen iv).2.x 15 = load32 tau 12 ∧
    (∀ i, i < 4 → rd (salsa_set_key_and_iv ctx key keylen iv).2.x (11 + i)
      = rd (salsa_set_key_and_iv ctx key keylen iv).2.x (1 + i)) ∧
    rd (salsa_set_key_and_iv ctx key keylen iv).2.x 6 = load32 iv 0 ∧
    rd (salsa_set_key_and_iv ctx key keylen iv).2.x 7 = load32 iv 4 ∧
    rd (salsa_set_key_and_iv ctx key keylen iv).2.x 8 = 0 ∧
    rd (salsa_set_key_and_iv ctx key keylen iv).2.x 9 = 0 ∧
    (16 ≤ keylen → ∀ i, i < 4 →
      rd (salsa_set_key_and_iv ctx key keylen iv).2.x (1 + i) = load32 key (4 * i)) := by
  obtain ⟨wk, wv, wx, -, -, -⟩ := hwf
  have hkr : ∀ k, rd key k < 2 ^ 8 := hk.rd_lt
  have hvr : ∀ k, rd iv k < 2 ^ 8 := hv.rd_lt
  have hne : ¬ keylen = 32 := by omega
  have hs : salsa_set_key_and_iv ctx key keylen iv
      = (0, set_key_fill { ctx with keylen := 16 } key keylen iv key_expand_16 0) := by
    unfold salsa_set_key_and_iv
    rw [if_neg hne, if_pos ⟨h32, h0⟩]
  rw [hs]
  simp only
  rw [set_key_fill_state { ctx with keylen := 16 } key keylen iv key_expand_16 0 wx wv]
  simp only
  have s0 : U8TO32_LITTLE key_expand_16 0 = load32 tau 0 := by decide
  have s1 : U8TO32_LITTLE key_expand_16 4 = load32 tau 4 := by decide
  have s2 : U8TO32_LITTLE key_expand_16 8 = load32 tau 8 := by decide
  have s3 : U8TO32_LITTLE key_expand_16 12 = load32 tau 12 := by decide
  have hn2 : keylen.toNat ≤ ctx.key.length := by omega
  refine ⟨trivial, rfl, ?_, ?_, ?_, ?_, ?_, ?_, ?_, ?_, ?_, ?_⟩
  · simp only [rd, List.getD_cons_succ, List.getD_cons_zero]; exact s0
  · simp only [rd, List.getD_cons_succ, List.getD_cons_zero]; exact s1
  · simp only [rd, List.getD_cons_succ, List.getD_cons_zero]; exact s2
  · simp only [rd, List.getD_cons_succ, List.getD_cons_zero]; exact s3
  · intro i hi
    have : i = 0 ∨ i = 1 ∨ i = 2 ∨ i = 3 := by omega
    rcases this with rfl | rfl | rfl | rfl <;>
      simp only [rd, List.getD_cons_succ, List.getD_cons_zero]
  · simp only [rd, List.getD_cons_succ, List.getD_cons_zero]
    exact U8TO32_LITTLE_eq_load32 iv 0 (hvr _) (hvr _) (hvr _) (hvr _)
  · simp only [rd, List.getD_cons_succ, List.getD_cons_zero]
    exact U8TO32_LITTLE_eq_load32 iv 4 (hvr _) (hvr _) (hvr _) (hvr _)
  · simp only [rd, List.getD_cons_succ, List.getD_cons_zero]
  · simp only [rd, List.getD_cons_succ, List.getD_cons_zero]
  · intro h16 i hi
    have hn : 16 ≤ keylen.toNat := by omega
    have : i = 0 ∨ i = 1 ∨ i = 2 ∨ i = 3 := by omega
    rcases this with rfl | rfl | rfl | rfl
    · simp only [rd, List.getD_cons_succ, List.getD_cons_zero]
      exact U8TO32_LITTLE_memcpy _ _ _ _ (by omega) hn2 hkr
    · simp only [rd, List.getD_cons_succ, List.getD_cons_zero]
      exact U8TO32_LITTLE_memcpy _ _ _ _ (by omega) hn2 hkr
    · simp only [rd, List.getD_cons_succ, List.getD_cons_zero]
      exact U8TO32_LITTLE_memcpy _ _ _ _ (by omega) hn2 hkr
    · simp only [rd, List.getD_cons_succ, List.getD_cons_zero]
      exact U8TO32_LITTLE_memcpy _ _ _ _ (by omega) hn2 hkr

theorem state_layout_short_key_witness :
    (used_context.wf ∧ (0 : Int) < 16 ∧ (16 : Int) < 32 ∧
      is_bytes (List.replicate 16 1) (16 : Int).toNat ∧ is_bytes (List.replicate 8 2) 8) ∧
    ((salsa_set_key_and_iv used_context (List.replicate 16 1) 16 (List.replicate 8 2)).1 = 0 ∧
    (salsa_set_key_and_iv used_context (List.replicate 16 1) 16 (List.replicate 8 2)).2.x.length
      = 16 ∧
    rd (salsa_set_key_and_iv used_context (List.replicate 16 1) 16 (List.replicate 8 2)).2.x 0
      = load32 tau 0 ∧
    rd (salsa_set_key_and_iv used_context (List.replicate 16 1) 16 (List.replicate 8 2)).2.x 5
      = load32 tau 4 ∧
    rd (salsa_set_key_and_iv used_context (List.replicate 16 1) 16 (List.replicate 8 2)).2.x 10
      = load32 tau 8 ∧
    rd (salsa_set_key_and_iv used_context (List.replicate 16 1) 16 (List.replicate 8 2)).2.x 15
      = load32 tau 12 ∧
    (∀ i, i < 4 →
      rd (salsa_set_key_and_iv used_context (List.replicate 16 1) 16
          (List.replicate 8 2)).2.x (11 + i)
        = rd (salsa_set_key_and_iv used_context (List.replicate 16 1) 16
          (List.replicate 8 2)).2.x (1 + i)) ∧
    rd (salsa_set_key_and_iv used_context (List.replicate 16 1) 16 (List.replicate 8 2)).2.x 6
      = load32 (List.replicate 8 2) 0 ∧
    rd (salsa_set_key_and_iv used_context (List.replicate 16 1) 16 (List.replicate 8 2)).2.x 7
      = load32 (List.replicate 8 2) 4 ∧
    rd (salsa_set_key_and_iv used_context (List.replicate 16 1) 16 (List.replicate 8 2)).2.x 8
      = 0 ∧
    rd (salsa_set_key_and_iv used_context (List.replicate 16 1) 16 (List.replicate 8 2)).2.x 9
      = 0 ∧
    ((16 : Int) ≤ 16 → ∀ i, i < 4 →
      rd (salsa_set_key_and_iv used_context (List.replicate 16 1) 16
          (List.replicate 8 2)).2.x (1 + i)
        = load32 (List.replicate 16 1) (4 * i))) :=
  ⟨by decide,
    state_layout_short_key used_context (List.replicate 16 1) (List.replicate 8 2) 16
      (by decide) (by decide) (by decide) (by decide) (by decide)⟩

/-- C9 (continuation after a partial block): for a well-formed context with
counter `c0`, a first input `A` of `64 k + r` bytes with `0 < r < 64` and a
second input `B` of bytes, the second call of `salsa_encrypt` on the context
left by the first writes at every index `i` of `B` the byte
`B[i] XOR KS((c0 + k + 1 + i / 64) mod 2^64)[i mod 64]`: it starts at byte 0
of the block after the partly used one. -/
theorem continuation_starts_fresh_block (ctx : salsa_context) (hwf : ctx.wf) (A B : List Nat) (k r : Nat)
    (hr0 : 0 < r) (hr : r < 64) (hA : A.length = 64 * k + r) (hB : ∀ b ∈ B, b < 2 ^ 8)
    (outA outB : List Nat) (hoB : B.length ≤ outB.length) :
    ∀ i, i < B.length →
      rd (salsa_encrypt (salsa_encrypt ctx A A.length outA).1 B B.length outB).2 i =
        rd B i ^^^ rd (KS ctx ((counter ctx + k + 1 + i / 64) % 2 ^ 64)) (i % 64) := by
  intro i hi
  obtain ⟨hx, -, -, -⟩ := wf_counter ctx hwf
  have hc := salsa_encrypt_ctx_wf ctx hwf A A.length outA
  have e : (A.length + 63) / 64 = k + 1 := by omega
  rw [hc, e]
  have h := (salsa_encrypt_spec ctx hx (counter ctx + (k + 1)) B
    (rd_lt_of_forall (by norm_num) hB) B.length outB hoB).2 i
  rw [h, if_pos hi, KS_mod]
  have e2 : counter ctx + (k + 1) + i / 64 = counter ctx + k + 1 + i / 64 := by omega
  rw [e2]

theorem continuation_starts_fresh_block_witness :
    (zero_key_context.wf ∧ 0 < 6 ∧ 6 < 64 ∧ (List.replicate 70 1).length = 64 * 1 + 6 ∧
      (∀ b ∈ List.replicate 5 2, b < 2 ^ 8) ∧
      (List.replicate 5 2).length ≤ (List.replicate 5 0).length) ∧
    ∀ i, i < (List.replicate 5 2).length →
      rd (salsa_encrypt
          (salsa_encrypt zero_key_context (List.replicate 70 1) (List.replicate 70 1).length
            (List.replicate 70 0)).1
          (List.replicate 5 2) (List.replicate 5 2).length (List.replicate 5 0)).2 i =
        rd (List.replicate 5 2) i ^^^
          rd (KS zero_key_context ((counter zero_key_context + 1 + 1 + i / 64) % 2 ^ 64))
            (i % 64) :=
  ⟨by decide,
    continuation_starts_fresh_block zero_key_context (by decide) (List.replicate 70 1)
      (List.replicate 5 2) 1 6 (by decide) (by decide) (by decide) (by decide)
      (List.replicate 70 0) (List.replicate 5 0) (by decide)⟩

/-- C10 (frame): `salsa_encrypt` and `salsa_decrypt` leave `keylen`, `key`, `iv`,
the number of state words and every state slot other than 8 and 9 unchanged,
for every context and every input. -/
theorem stream_processor_frame (ctx : salsa_context) (buf : List Nat) (buflen : Nat) (out : List Nat) :
    ((salsa_encrypt ctx buf buflen out).1.keylen = ctx.keylen ∧
      (salsa_encrypt ctx buf buflen out).1.key = ctx.key ∧
      (salsa_encrypt ctx buf buflen out).1.iv = ctx.iv ∧
      (salsa_encrypt ctx buf buflen out).1.x.length = ctx.x.length ∧
      ∀ i, i ≠ 8 → i ≠ 9 → rd (salsa_encrypt ctx buf buflen out).1.x i = rd ctx.x i) ∧
    ((salsa_decrypt ctx buf buflen out).1.keylen = ctx.keylen ∧
      (salsa_decrypt ctx buf buflen out).1.key = ctx.key ∧
      (salsa_decrypt ctx buf buflen out).1.iv = ctx.iv ∧
      (salsa_decrypt ctx buf buflen out).1.x.length = ctx.x.length ∧
      ∀ i, i ≠ 8 → i ≠ 9 → rd (salsa_decrypt ctx buf buflen out).1.x i = rd ctx.x i) :=
  ⟨salsa_encrypt_frame ctx buf buflen out, salsa_encrypt_frame ctx buf buflen out⟩

/-- C11 (empty input): with `buflen = 0`, `salsa_encrypt` and `salsa_decrypt`
return the context and the output buffer exactly as they were, and make no
call of `salsa20`, for every context. -/
theorem empty_input_no_op (ctx : salsa_context) (buf out : List Nat) :
    salsa_encrypt ctx buf 0 out = (ctx, out) ∧ salsa_decrypt ctx buf 0 out = (ctx, out) ∧
    salsa_encrypt_calls ctx buf 0 out = [] :=
  ⟨(salsa_encrypt_zero ctx buf out).1, (salsa_encrypt_zero ctx buf out).1,
    (salsa_encrypt_zero ctx buf out).2⟩

/-- C12 (decrypt is encrypt): for every context, input and output buffer,
`salsa_decrypt` returns the same context and the same output buffer as
`salsa_encrypt`. -/
theorem decrypt_is_encrypt (ctx : salsa_context) (buf : List Nat) (buflen : Nat)
    (out : List Nat) :
    salsa_decrypt ctx buf buflen out = salsa_encrypt ctx buf buflen out ∧
    (salsa_decrypt ctx buf buflen out).1 = (salsa_encrypt ctx buf buflen out).1 ∧
    (salsa_decrypt ctx buf buflen out).2 = (salsa_encrypt ctx buf buflen out).2 :=
  ⟨rfl, rfl, rfl⟩

/-- C17 (no keystream position reused): for a well-formed context and an input
of `n < 2^32` bytes, `salsa_encrypt` calls `salsa20` exactly `ceil(n / 64)`
times, the `k`-th call under the counter `(c0 + k) mod 2^64`; these counters
are pairwise distinct and so are the 16-word states of the calls. -/
theorem keystream_counters_distinct (ctx : salsa_context) (hwf : ctx.wf) (buf : List Nat)
    (n : Nat) (hn : n < 2 ^ 32) (out : List Nat) :
    (salsa_encrypt_calls ctx buf n out).length = (n + 63) / 64 ∧
    (salsa_encrypt_calls ctx buf n out).map counter
      = (List.range ((n + 63) / 64)).map (fun k => (counter ctx + k) % 2 ^ 64) ∧
    ((salsa_encrypt_calls ctx buf n out).map counter).Nodup ∧
    ((salsa_encrypt_calls ctx buf n out).map salsa_context.x).Nodup := by
  obtain ⟨hx, -, -, -⟩ := wf_counter ctx hwf
  have hc := salsa_encrypt_calls_wf ctx hwf buf n out
  have hcnt := calls_counters ctx hx (counter ctx) ((n + 63) / 64)
  rw [← hc] at hcnt
  have hnd : ((salsa_encrypt_calls ctx buf n out).map counter).Nodup := by
    rw [hcnt]
    exact counters_nodup _ _ (by omega)
  refine ⟨by rw [hc, List.length_map, List.length_range], hcnt, hnd, ?_⟩
  have e : (salsa_encrypt_calls ctx buf n out).map counter
      = ((salsa_encrypt_calls ctx buf n out).map salsa_context.x).map
          (fun x => rd x 9 * 2 ^ 32 + rd x 8) := by
    rw [List.map_map]
    rfl
  rw [e] at hnd
  exact List.Nodup.of_map _ hnd

theorem keystream_counters_distinct_witness :
    (wrap_context.wf ∧ 200 < 2 ^ 32) ∧
    ((salsa_encrypt_calls wrap_context (List.replicate 200 1) 200 (List.replicate 200 0)).length
      = (200 + 63) / 64 ∧
    (salsa_encrypt_calls wrap_context (List.replicate 200 1) 200 (List.replicate 200 0)).map
        counter
      = (List.range ((200 + 63) / 64)).map (fun k => (counter wrap_context + k) % 2 ^ 64) ∧
    ((salsa_encrypt_calls wrap_context (List.replicate 200 1) 200
      (List.replicate 200 0)).map counter).Nodup ∧
    ((salsa_encrypt_calls wrap_context (List.replicate 200 1) 200
      (List.replicate 200 0)).map salsa_context.x).Nodup) :=
  ⟨by decide,
    keystream_counters_distinct wrap_context (by decide) (List.replicate 200 1) 200 (by decide)
      (List.replicate 200 0)⟩

/-- C13 (unrolled loop is the reference double round): for every 16-word state
`x`, the working array of `salsa20` before the feed-forward is ten iterations
of the column round followed by the row round, built from the quarter-round of
the claim; and for a 32-bit word `v` and an amount `n` among 7, 9, 13, 18 the
macro `ROTL32` is the 32-bit circular left rotation: it equals `rotl32`, stays
below `2^32`, and bit `i` of the result is bit `i - n` modulo 32 of `v`. -/
theorem mixing_loop_is_doubleround (x : List Nat) (hx : x.length = 16) (v n : Nat)
    (hv : v < 2 ^ 32) (hn : n = 7 ∨ n = 9 ∨ n = 13 ∨ n = 18) :
    salsa20_mix x = Nat.iterate doubleround 10 x ∧
    ROTL32 v n = rotl32 v n ∧ ROTL32 v n < 2 ^ 32 ∧
    ∀ i, i < 32 → (ROTL32 v n).testBit i = v.testBit ((i + (32 - n)) % 32) := by
  have h0 : 0 < n := by omega
  have h32 : n < 32 := by omega
  refine ⟨?_, ROTL32_eq_rotl32 v n hv h0 h32, ROTL32_lt v n hv,
    fun i hi => ROTL32_testBit v n i hv h0 h32 hi⟩
  rw [salsa20_mix_eq_doubleround, copy16 x hx]

theorem mixing_loop_is_doubleround_witness :
    (zero_key_context.x.length = 16 ∧ 0x80000001 < 2 ^ 32 ∧ (7 = 7 ∨ 7 = 9 ∨ 7 = 13 ∨ 7 = 18)) ∧
    (salsa20_mix zero_key_context.x = Nat.iterate doubleround 10 zero_key_context.x ∧
    ROTL32 0x80000001 7 = rotl32 0x80000001 7 ∧ ROTL32 0x80000001 7 < 2 ^ 32 ∧
    ∀ i, i < 32 → (ROTL32 0x80000001 7).testBit i = (0x80000001).testBit ((i + (32 - 7)) % 32)) :=
  ⟨by decide,
    mixing_loop_is_doubleround zero_key_context.x (by decide) 0x80000001 7 (by decide)
      (by decide)⟩

/-- C14 (feed-forward and serialisation): for every context and every `i < 16`,
byte `4 i + k` of the keystream block of `salsa20` is byte `k` of the
little-endian encoding of `(permute(x)[i] + x[i]) mod 2^32`, where `permute(x)`
is the working array after the ten iterations; the block has 16 words and is
the same for any other `keylen`, `key` and `iv` beside the same state words;
and in the stream processor the context after the call of `salsa20` and the
counter statements is the counter step of the context before the call. -/
theorem feed_forward_serialisation (ctx : salsa_context) (i k : Nat) (hi : i < 16) (hk : k < 4)
    (keylen1 : Int) (key1 iv1 : List Nat) (buf : List Nat) (s : enc_state) :
    byte_of_words (salsa20 ctx) (4 * i + k)
      = rd (le_bytes ((rd (salsa20_mix ctx.x) i + rd ctx.x i) % 2 ^ 32)) k ∧
    (salsa20 ctx).length = 16 ∧
    salsa20 { keylen := keylen1, key := key1, iv := iv1, x := ctx.x } = salsa20 ctx ∧
    (full_block_step buf s).ctx = counter_incr s.ctx := by
  refine ⟨byte_of_words_salsa20 ctx i k hi hk, ?_, rfl, ?_⟩
  · simp [salsa20, idx16]
  · simp only [full_block_step]

theorem feed_forward_serialisation_witness :
    ((3 : Nat) < 16 ∧ (2 : Nat) < 4) ∧
    (byte_of_words (salsa20 zero_key_context) (4 * 3 + 2)
      = rd (le_bytes ((rd (salsa20_mix zero_key_context.x) 3 + rd zero_key_context.x 3)
          % 2 ^ 32)) 2 ∧
    (salsa20 zero_key_context).length = 16 ∧
    salsa20 { keylen := 16, key := [], iv := [], x := zero_key_context.x }
      = salsa20 zero_key_context ∧
    (full_block_step (List.replicate 64 0) one_block_state).ctx
      = counter_incr one_block_state.ctx) :=
  ⟨by decide,
    feed_forward_serialisation zero_key_context 3 2 (by decide) (by decide) 16 [] []
      (List.replicate 64 0) one_block_state⟩

/-- C15 (the mixing step is a permutation): undoing the 32 updates of each
iteration in reverse order, ten times, is a two-sided inverse of the ten
iterations of the round loop; the ten iterations map the 16-tuples of 32-bit
words one-to-one onto themselves, and so does the working array of `salsa20`
as a function of the copied state, so two different states never give the same
mixed array. -/
theorem mixing_is_bijection :
    Function.LeftInverse (Nat.iterate salsa20_round_inv 10) (Nat.iterate salsa20_round 10) ∧
    Function.RightInverse (Nat.iterate salsa20_round_inv 10) (Nat.iterate salsa20_round 10) ∧
    Set.BijOn (Nat.iterate salsa20_round 10) {z | is_state z} {z | is_state z} ∧
    Set.BijOn salsa20_mix {z | is_state z} {z | is_state z} ∧
    (∀ x y, is_state x → is_state y → salsa20_mix x = salsa20_mix y → x = y) ∧
    (∀ x, is_state x → Nat.iterate salsa20_round_inv 10 (salsa20_mix x) = x) := by
  have hl := Function.LeftInverse.iterate salsa20_round_inv_round 10
  have hr := Function.RightInverse.iterate salsa20_round_round_inv 10
  have hmix : ∀ x, is_state x → salsa20_mix x = Nat.iterate salsa20_round 10 x := by
    intro x hx
    unfold salsa20_mix
    simp only
    rw [copy16 x hx.1]
  have hb : Set.BijOn salsa20_mix {z | is_state z} {z | is_state z} :=
    mix_bijOn.congr (fun x hx => (hmix x hx).symm)
  refine ⟨hl, hr, mix_bijOn, hb, fun x y hx hy h => hb.injOn hx hy h, fun x hx => ?_⟩
  rw [hmix x hx]
  exact hl x

/-- C16 (block-aligned splitting): for a well-formed context, a byte buffer `A`
whose length is a multiple of 64 and a byte buffer `B`, the bytes written by
`salsa_encrypt` on `A` followed by the bytes written by a second call on `B`
with the context left by the first are the bytes written by one call on
`A ++ B` from the starting context, and both ways end with the same
context. -/
theorem block_aligned_split (ctx : salsa_context) (hwf : ctx.wf) (A B : List Nat)
    (hA : ∀ b ∈ A, b < 2 ^ 8) (hB : ∀ b ∈ B, b < 2 ^ 8) (m : Nat) (hm : A.length = 64 * m)
    (outA outB outAB : List Nat) (hoA : A.length ≤ outA.length) (hoB : B.length ≤ outB.length)
    (hoAB : A.length + B.length ≤ outAB.length) :
    (salsa_encrypt ctx A A.length outA).2.take A.length ++
        (salsa_encrypt (salsa_encrypt ctx A A.length outA).1 B B.length outB).2.take B.length
      = (salsa_encrypt ctx (A ++ B) (A.length + B.length) outAB).2.take (A.length + B.length) ∧
    (salsa_encrypt (salsa_encrypt ctx A A.length outA).1 B B.length outB).1
      = (salsa_encrypt ctx (A ++ B) (A.length + B.length) outAB).1 :=
  salsa_encrypt_split ctx hwf A B hA hB m hm outA outB outAB hoA hoB hoAB

theorem block_aligned_split_witness :
    (wrap_context.wf ∧ (∀ b ∈ List.replicate 64 1, b < 2 ^ 8) ∧
      (∀ b ∈ List.replicate 5 2, b < 2 ^ 8) ∧ (List.replicate 64 1).length = 64 * 1 ∧
      (List.replicate 64 1).length ≤ (List.replicate 64 0).length ∧
      (List.replicate 5 2).length ≤ (List.replicate 5 0).length ∧
      (List.replicate 64 1).length + (List.replicate 5 2).length
        ≤ (List.replicate 69 0).length) ∧
    ((salsa_encrypt wrap_context (List.replicate 64 1) (List.replicate 64 1).length
          (List.replicate 64 0)).2.take (List.replicate 64 1).length ++
        (salsa_encrypt (salsa_encrypt wrap_context (List.replicate 64 1)
          (List.replicate 64 1).length (List.replicate 64 0)).1 (List.replicate 5 2)
          (List.replicate 5 2).length (List.replicate 5 0)).2.take (List.replicate 5 2).length
      = (salsa_encrypt wrap_context (List.replicate 64 1 ++ List.replicate 5 2)
          ((List.replicate 64 1).length + (List.replicate 5 2).length)
          (List.replicate 69 0)).2.take
            ((List.replicate 64 1).length + (List.replicate 5 2).length) ∧
    (salsa_encrypt (salsa_encrypt wrap_context (List.replicate 64 1)
        (List.replicate 64 1).length (List.replicate 64 0)).1 (List.replicate 5 2)
        (List.replicate 5 2).length (List.replicate 5 0)).1
      = (salsa_encrypt wrap_context (List.replicate 64 1 ++ List.replicate 5 2)
          ((List.replicate 64 1).length + (List.replicate 5 2).length)
          (List.replicate 69 0)).1) :=
  ⟨by decide,
    block_aligned_split wrap_context (by decide) (List.replicate 64 1) (List.replicate 5 2)
      (by decide) (by decide) 1 (by decide) (List.replicate 64 0) (List.replicate 5 0)
      (List.replicate 69 0) (by decide) (by decide) (by decide)⟩

/-- C18 (XOR-linearity in the data): for a well-formed context and byte buffers
`A` and `D` of equal length `n`, the bytes `salsa_encrypt` writes for
`A XOR D` are the bytes it writes for `A`, XOR-ed byte for byte with `D`; the
two runs end with the same context, and so do any two runs on inputs of
length `n`, whatever the input bytes and output buffers. -/
theorem xor_linearity (ctx : salsa_context) (hwf : ctx.wf) (A D : List Nat)
    (hA : ∀ b ∈ A, b < 2 ^ 8) (hD : ∀ b ∈ D, b < 2 ^ 8) (hl : A.length = D.length)
    (out1 out2 : List Nat) (ho1 : A.length ≤ out1.length) (ho2 : A.length ≤ out2.length) :
    (salsa_encrypt ctx (xor_buffers A D) A.length out1).2.take A.length
      = xor_buffers ((salsa_encrypt ctx A A.length out2).2.take A.length) D ∧
    (salsa_encrypt ctx (xor_buffers A D) A.length out1).1
      = (salsa_encrypt ctx A A.length out2).1 ∧
    (∀ (X Y out3 out4 : List Nat),
      (salsa_encrypt ctx X A.length out3).1 = (salsa_encrypt ctx Y A.length out4).1) :=
  ⟨salsa_encrypt_xor ctx hwf A D hA hD hl out1 out2 ho1 ho2,
    (salsa_encrypt_ctx_wf ctx hwf _ _ _).trans (salsa_encrypt_ctx_wf ctx hwf _ _ _).symm,
    fun _ _ _ _ =>
      (salsa_encrypt_ctx_wf ctx hwf _ _ _).trans (salsa_encrypt_ctx_wf ctx hwf _ _ _).symm⟩

theorem xor_linearity_witness :
    (wrap_context.wf ∧ (∀ b ∈ List.replicate 70 1, b < 2 ^ 8) ∧
      (∀ b ∈ List.replicate 70 6, b < 2 ^ 8) ∧
      (List.replicate 70 1).length = (List.replicate 70 6).length ∧
      (List.replicate 70 1).length ≤ (List.replicate 70 0).length ∧
      (List.replicate 70 1).length ≤ (List.replicate 72 9).length) ∧
    ((salsa_encrypt wrap_context (xor_buffers (List.replicate 70 1) (List.replicate 70 6))
        (List.replicate 70 1).length (List.replicate 70 0)).2.take (List.replicate 70 1).length
      = xor_buffers ((salsa_encrypt wrap_context (List.replicate 70 1)
          (List.replicate 70 1).length (List.replicate 72 9)).2.take
            (List.replicate 70 1).length) (List.replicate 70 6) ∧
    (salsa_encrypt wrap_context (xor_buffers (List.replicate 70 1) (List.replicate 70 6))
        (List.replicate 70 1).length (List.replicate 70 0)).1
      = (salsa_encrypt wrap_context (List.replicate 70 1) (List.replicate 70 1).length
          (List.replicate 72 9)).1 ∧
    (∀ (X Y out3 out4 : List Nat),
      (salsa_encrypt wrap_context X (List.replicate 70 1).length out3).1
        = (salsa_encrypt wrap_context Y (List.replicate 70 1).length out4).1)) :=
  ⟨by decide,
    xor_linearity wrap_context (by decide) (List.replicate 70 1) (List.replicate 70 6)
      (by decide) (by decide) (by decide) (List.replicate 70 0) (List.replicate 72 9)
      (by decide) (by decide)⟩

end Salsa
